import Mathlib

set_option autoImplicit false

/-
  Verification development for the amica_processing repository.

  The repository has two Python modules:
  * src/amica_processing.py  - brat-style annotation ingestion (convert,
    entry_to_data, files_to_dict, store_csv_json)
  * src/twitIE_amica.py      - text cleaning and NER-based anonymisation
    (clean, get_entities, process, process_merge)

  The definitions below are a shallow embedding of those functions.  Python
  built-in string/list operations (str.split, str.replace, str.strip, int(),
  ', '.join, dict updates, numpy.array_split) are modelled by explicit
  executable Lean functions; each model carries a comment naming the Python
  operation it stands for.  Recursions that are not structural in Python are
  given a fuel argument (always called with sufficient fuel) so that every
  definition reduces by evaluation.
-/

namespace AmicaSpec

/- ### Models of Python built-in operations -/

/-- Code points Python treats as whitespace for str.split() / str.strip(). -/
def pyWsCodes : List Nat :=
  [9, 10, 11, 12, 13, 28, 29, 30, 31, 32, 133, 160, 5760,
   8192, 8193, 8194, 8195, 8196, 8197, 8198, 8199, 8200, 8201, 8202,
   8232, 8233, 8239, 8287, 12288]

def pyIsSpace (c : Char) : Bool := pyWsCodes.contains c.toNat

/-- Python str.strip() with no argument: drop whitespace from both ends. -/
def pyStrip (l : List Char) : List Char :=
  ((l.dropWhile pyIsSpace).reverse.dropWhile pyIsSpace).reverse

/-- Helper for str.split() with no separator; acc holds the pending token
reversed. -/
def splitWSAux : List Char → List Char → List (List Char)
  | [], acc => if acc = [] then [] else [acc.reverse]
  | c :: rest, acc =>
    if pyIsSpace c then
      (if acc = [] then splitWSAux rest [] else acc.reverse :: splitWSAux rest [])
    else splitWSAux rest (c :: acc)

/-- Python str.split() with no separator: split on whitespace runs, no empty
tokens. -/
def splitWS (l : List Char) : List (List Char) := splitWSAux l []

/-- Python sep.join(tokens). -/
def joinWith (sep : List Char) : List (List Char) → List Char
  | [] => []
  | [t] => t
  | t :: rest => t ++ sep ++ joinWith sep rest

/-- Python sep.join on strings. -/
def pyJoin (sep : String) (l : List String) : String :=
  ⟨joinWith sep.data (l.map String.data)⟩

/-- Python str.replace(pat, rep) for non-empty pat: leftmost non-overlapping
scan, fuelled (fuel ≥ length of the scanned list suffices). -/
def replaceAllF : Nat → List Char → List Char → List Char → List Char
  | 0, s, _, _ => s
  | fuel + 1, s, pat, rep =>
    match s with
    | [] => []
    | c :: rest =>
      if pat.isPrefixOf s then rep ++ replaceAllF fuel (s.drop pat.length) pat rep
      else c :: replaceAllF fuel rest pat rep

/-- Python str.replace(pat, rep); the empty-pattern branch mirrors Python,
which inserts rep before every character and at the end. -/
def replaceAll (s pat rep : List Char) : List Char :=
  if pat = [] then rep ++ s.foldr (fun c acc => c :: (rep ++ acc)) []
  else replaceAllF s.length s pat rep

def strReplaceAll (s pat rep : String) : String := ⟨replaceAll s.data pat.data rep.data⟩

/-- Python str.split(pat) for a non-empty explicit separator, fuelled. -/
def pySplitF : Nat → List Char → List Char → List (List Char)
  | 0, s, _ => [s]
  | fuel + 1, s, pat =>
    match s with
    | [] => [[]]
    | c :: rest =>
      if pat.isPrefixOf s then [] :: pySplitF fuel (s.drop pat.length) pat
      else (pySplitF fuel rest pat).modifyHead (fun t => c :: t)

def pySplit (s pat : List Char) : List (List Char) := pySplitF s.length s pat

def pySplitStr (s pat : String) : List String :=
  (pySplit s.data pat.data).map (fun l => (⟨l⟩ : String))

/-- Python substring containment, pat in s. -/
def hasInfixB : List Char → List Char → Bool
  | [], pat => pat.isPrefixOf []
  | c :: rest, pat => pat.isPrefixOf (c :: rest) || hasInfixB rest pat

def hasSub (s pat : String) : Bool := hasInfixB s.data pat.data

def digitVal (c : Char) : Nat := c.toNat - 48

def digitsToNat (ds : List Char) : Nat := ds.foldl (fun a c => a * 10 + digitVal c) 0

/-- Python int(text) on an already stripped character list: optional sign
followed by decimal digits (digit-grouping underscores are not modelled). -/
def pyIntCore (t : List Char) : Option Int :=
  match t with
  | [] => none
  | c :: rest =>
    if c = '-' then
      (if rest ≠ [] ∧ rest.all Char.isDigit then some (-(digitsToNat rest : Int)) else none)
    else if c = '+' then
      (if rest ≠ [] ∧ rest.all Char.isDigit then some ((digitsToNat rest : Int)) else none)
    else if (c :: rest).all Char.isDigit then some ((digitsToNat (c :: rest) : Int)) else none

/-- Python error kinds distinguished by the repository's handlers. -/
inductive PyErr where
  | indexE
  | valueE
deriving DecidableEq, Repr

/-- Python int(s): strips whitespace, parses a signed decimal literal,
raises ValueError otherwise. -/
def pyInt (s : String) : Except PyErr Int :=
  match pyIntCore (pyStrip s.data) with
  | some n => .ok n
  | none => .error .valueE

/-- Python positive-index list subscription l[n]; raises IndexError when out
of range. -/
def pyIdx {α : Type} (l : List α) (n : Nat) : Except PyErr α :=
  match l.get? n with
  | some x => .ok x
  | none => .error .indexE

/-- Decimal digits of n, fuelled (fuel ≥ n suffices). -/
def natDigitsF : Nat → Nat → List Char
  | 0, n => [Char.ofNat (48 + n % 10)]
  | fuel + 1, n =>
    if n < 10 then [Char.ofNat (48 + n)]
    else natDigitsF fuel (n / 10) ++ [Char.ofNat (48 + n % 10)]

/-- Python str(n) for a non-negative int n. -/
def pyStrNat (n : Nat) : String := ⟨natDigitsF n n⟩

/-- Python str(i) for an int. -/
def pyStrInt (i : Int) : String :=
  if i < 0 then "-" ++ pyStrNat i.natAbs else pyStrNat i.toNat

/-- Python dict update d[k] = v: insertion order preserved, last write wins. -/
def dictUpd {α β : Type} [DecidableEq α] : List (α × β) → α → β → List (α × β)
  | [], k, v => [(k, v)]
  | (k0, v0) :: rest, k, v =>
    if k0 = k then (k0, v) :: rest else (k0, v0) :: dictUpd rest k v

/-- Python dict built from a pair sequence (as a dict comprehension does). -/
def dictOfPairs {α β : Type} [DecidableEq α] (l : List (α × β)) : List (α × β) :=
  l.foldl (fun d kv => dictUpd d kv.1 kv.2) []

/-- Python dict lookup d[k] on an association list with unique keys. -/
def assocFind {α β : Type} [DecidableEq α] (l : List (α × β)) (k : α) : Option β :=
  (l.find? (fun kv => kv.1 = k)).map (·.2)

/-- Effectful map over a list in the Except monad, stopping at the first
error, as a Python comprehension does. -/
def exMapList {α β : Type} (f : α → Except PyErr β) : List α → Except PyErr (List β)
  | [] => .ok []
  | a :: rest =>
    match f a with
    | .error e => .error e
    | .ok b =>
      match exMapList f rest with
      | .error e => .error e
      | .ok bs => .ok (b :: bs)

def optMapList {α β : Type} (f : α → Option β) : List α → Option (List β)
  | [] => some []
  | a :: rest =>
    match f a, optMapList f rest with
    | some b, some bs => some (b :: bs)
    | _, _ => none

/- ### twitIE_amica.py : clean -/

/-- Code points of string.punctuation minus the kept set
period, comma, at, bang, question, hash, single quote, double quote;
these are the characters clean replaces with a space. -/
def removedPunctCodes : List Nat :=
  [36, 37, 38, 40, 41, 42, 43, 45, 47, 58, 59, 60, 61, 62,
   91, 92, 93, 94, 95, 96, 123, 124, 125, 126]

def removedPunct : List Char := removedPunctCodes.map Char.ofNat

/-- One iteration of the clean loop: replace unwanted punctuation by spaces,
strip, drop non-ASCII, split on whitespace, drop tokens equal to a single
space (the source's redundant filter), join with single spaces. -/
def cleanText (s : String) : String :=
  let noPunct := s.data.map (fun c => if removedPunct.contains c then ' ' else c)
  let stripped := pyStrip noPunct
  let asciiOnly := stripped.filter (fun c => c.toNat < 128)
  let toks := (splitWS asciiOnly).filter (fun t => t ≠ [' '])
  ⟨joinWith [' '] toks⟩

/-- clean from twitIE_amica.py: the loop appending one cleaned string per
series element. -/
def clean : List String → List String
  | [] => []
  | t :: rest => cleanText t :: clean rest

/-- Checker for the no-consecutive-spaces property. -/
def noConsecSpace : List Char → Bool
  | [] => true
  | [_] => true
  | a :: b :: rest => !(a = ' ' && b = ' ') && noConsecSpace (b :: rest)

/- ### twitIE_amica.py : get_entities -/

/-- One entity object of the NER response: an indices pair plus the optional
locType / gender attributes.  The outer Option is key absence, the inner
Option is a JSON null value. -/
structure Entity where
  indices : List Nat
  locType : Option (Option String) := none
  gender : Option (Option String) := none
deriving Repr, DecidableEq

/-- entity['indices'][0]; total with default 0 (the source presumes a
non-empty indices list). -/
def entStart (e : Entity) : Nat := e.indices.headD 0

/-- entity['indices'][-1]; total with default 0. -/
def entEnd (e : Entity) : Nat := e.indices.getLastD 0

/-- get_entities from twitIE_amica.py.  Branches test substring containment
of the type name in the key, in source order; Organization entities are
appended to the URL-shaped list.  Keys come from the entities dict itself,
so the lookup always succeeds; the model defaults to []. -/
def get_entities (entities : List (String × List Entity)) (entity_keys : List String) :
    List (Nat × Nat) × List (Nat × Nat) × List (Nat × Nat × Option String) × List (Nat × Nat × Option String) :=
  match entity_keys with
  | [] => ([], [], [], [])
  | k :: keys =>
    let out := get_entities entities keys
    let es := (assocFind entities k).getD []
    if hasSub k "Location" then
      (out.1, out.2.1, out.2.2.1,
       es.map (fun e => (entStart e, entEnd e, e.locType.getD (some "na"))) ++ out.2.2.2)
    else if hasSub k "Person" then
      (out.1, out.2.1,
       es.map (fun e => (entStart e, entEnd e, e.gender.getD (some "na"))) ++ out.2.2.1,
       out.2.2.2)
    else if hasSub k "UserID" then
      (out.1, es.map (fun e => (entStart e, entEnd e)) ++ out.2.1, out.2.2.1, out.2.2.2)
    else if hasSub k "URL" then
      (es.map (fun e => (entStart e, entEnd e)) ++ out.1, out.2.1, out.2.2.1, out.2.2.2)
    else if hasSub k "Organization" then
      (es.map (fun e => (entStart e, entEnd e)) ++ out.1, out.2.1, out.2.2.1, out.2.2.2)
    else out

/- ### twitIE_amica.py : process -/

/-- A successfully parsed NER response: its text field and its entities
mapping in key insertion order. -/
structure Resp where
  text : String
  entities : List (String × List Entity)
deriving Repr, DecidableEq

/-- One value of the dictionary process builds:
(text, url_list, usrid_list, person_list, location_list). -/
structure ProcVal where
  text : String
  urls : List (Nat × Nat)
  usrids : List (Nat × Nat)
  persons : List (Nat × Nat × Option String)
  locs : List (Nat × Nat × Option String)
deriving Repr, DecidableEq

/-- " <--> ".join over the clean_text values of a chunk. -/
def joinSents (c : List String) : String := pyJoin " <--> " c

/-- The body shared by both request sites of process: read text and entities
from the response and run get_entities over the keys. -/
def mkVal (r : Resp) : ProcVal :=
  let q := get_entities r.entities (r.entities.map (·.1))
  ⟨r.text, q.1, q.2.1, q.2.2.1, q.2.2.2⟩

def splitSizes {α : Type} : List α → List Nat → List (List α)
  | _, [] => []
  | l, sz :: rest => l.take sz :: splitSizes (l.drop sz) rest

/-- numpy.array_split(l, n): n pieces, the first l.length % n of size
l.length / n + 1, the rest of size l.length / n. -/
def arraySplit {α : Type} (l : List α) (n : Nat) : List (List α) :=
  splitSizes l ((List.range n).map
    (fun j => if j < l.length % n then l.length / n + 1 else l.length / n))

/-- The sub-batch retry loop of process for chunk i.  The HTTP call plus
response parsing is the oracle api; None is any failure caught by the bare
except.  The Bool records whether the loop ran to completion; on a failure
the source returns the dictionary collected so far. -/
def processSubs (api : String → Option Resp) (i : Nat) :
    List (List String) → Nat → List (String × ProcVal) × Bool
  | [], _ => ([], true)
  | sb :: rest, j =>
    match api (joinSents sb) with
    | some r =>
      let out := processSubs api i rest (j + 1)
      ((pyStrNat i ++ "." ++ pyStrNat j, mkVal r) :: out.1, out.2)
    | none => ([], false)

/-- The chunk loop of process. -/
def processAux (api : String → Option Resp) :
    List (List String) → Nat → List (String × ProcVal)
  | [], _ => []
  | c :: rest, i =>
    match api (joinSents c) with
    | some r => (pyStrNat i, mkVal r) :: processAux api rest (i + 1)
    | none =>
      let out := processSubs api i (arraySplit c 25) 0
      if out.2 then out.1 ++ processAux api rest (i + 1) else out.1

/-- process from twitIE_amica.py, over an API oracle.  The returned
association list is the dictionary in insertion order. -/
def process (api : String → Option Resp) (chunks : List (List String)) :
    List (String × ProcVal) :=
  processAux api chunks 0

/- ### twitIE_amica.py : process_merge -/

/-- Python slice text[s:e] for non-negative bounds. -/
def substrPy (text : String) (s e : Nat) : String := ⟨(text.data.drop s).take (e - s)⟩

/-- Location placeholder selection of process_merge. -/
def locPlaceholder (typ : Option String) : String :=
  if typ = some "na" ∨ typ = some "pre" ∨ typ = some "post" ∨ typ = some "unknown" ∨ typ = none
  then "<LOCATION_unknown>"
  else "<LOCATION_" ++ typ.getD "" ++ ">"

/-- Person placeholder selection of process_merge. -/
def personPlaceholder (g : Option String) : String :=
  if g = some "na" ∨ g = some "None" ∨ g = none
  then "<PERSON_gender_unknown>"
  else "<PERSON_" ++ g.getD "" ++ ">"

/-- The location loop of process_merge: pairs (raw, placeholder) in entity
order. -/
def locReplacements (text : String) (locs : List (Nat × Nat × Option String)) :
    List (String × String) :=
  locs.map (fun t => (substrPy text t.1 t.2.1, locPlaceholder t.2.2))

/-- The person loop of process_merge. -/
def personReplacements (text : String) (persons : List (Nat × Nat × Option String)) :
    List (String × String) :=
  persons.map (fun t => (substrPy text t.1 t.2.1, personPlaceholder t.2.2))

/-- The URL loop of process_merge (Organization spans arrive in the same
list). -/
def urlReplacements (text : String) (urls : List (Nat × Nat)) : List (String × String) :=
  urls.map (fun t => (substrPy text t.1 t.2, "<URL>"))

/-- The UserID loop of process_merge: raw substrings equal to "i" or "t" are
skipped entirely. -/
def usridReplacements (text : String) (usrids : List (Nat × Nat)) : List (String × String) :=
  usrids.filterMap (fun t =>
    if substrPy text t.1 t.2 = "i" ∨ substrPy text t.1 t.2 = "t" then none
    else some (substrPy text t.1 t.2, "<USER_ID>"))

/-- total_replace for one dictionary value, in the source's loop order:
Location, Person, URL, UserID. -/
def totalReplace (v : ProcVal) : List (String × String) :=
  locReplacements v.text v.locs ++ personReplacements v.text v.persons ++
  urlReplacements v.text v.urls ++ usridReplacements v.text v.usrids

/-- The substitution fold of process_merge: sequential whole-string
str.replace over the pairs of total_replace. -/
def mergeText (v : ProcVal) : String :=
  (totalReplace v).foldl (fun acc pr => strReplaceAll acc pr.1 pr.2) v.text

/-- The loop of process_merge; hash_dict receives the same (raw, placeholder)
pairs as total_replace, in the same order. -/
def processMergeAux (hash : List (String × String)) (sents : List String) :
    List (String × ProcVal) → List String × List (String × String)
  | [] => (sents, hash)
  | kv :: rest =>
    let hash2 := (totalReplace kv.2).foldl (fun h pr => dictUpd h pr.1 pr.2) hash
    processMergeAux hash2 (sents ++ pySplitStr (mergeText kv.2) " &lt;--&gt; ") rest

/-- process_merge from twitIE_amica.py. -/
def process_merge (d : List (String × ProcVal)) : List String × List (String × String) :=
  processMergeAux [] [] d

/- ### amica_processing.py : convert -/

/-- One parsed annotation line (the value of the ann dictionary built by
convert). -/
structure Ann where
  t : Int
  index : List Int
  text : Option String
  label : String
deriving Repr, DecidableEq

/-- The macro test of entry_to_data: ann index 1 minus index 0 equals 1.
Total with default 0 (the source presumes the index tuple has two entries). -/
def width1 (a : Ann) : Bool := a.index.getD 1 0 - a.index.getD 0 0 == 1

/-- Parsing of one annotation line inside convert's dict comprehension, in
source evaluation order: key, then the t / index / text / label fields.
Index lookups raise IndexError, int() raises ValueError. -/
def parseAnnLine (a : List String) : Except PyErr (Int × Ann) := do
  let f1 ← pyIdx a 1
  let toks := (splitWS f1.data).map (fun l => (⟨l⟩ : String))
  let keyTok ← pyIdx toks 1
  let key ← pyInt keyTok
  let f0 ← pyIdx a 0
  let t ← pyInt ⟨f0.data.drop 1⟩
  let idx ← exMapList pyInt (toks.drop 1)
  let f2 ← pyIdx a 2
  let tx := if hasSub f2 "¶" then none else some (strReplaceAll f2 "\n" "")
  let lab ← pyIdx toks 0
  pure (key, ⟨t, idx, tx, lab⟩)

/-- The annotation half of convert: the try block catches IndexError only,
degrading the whole annotation set to empty; a ValueError propagates. -/
def convertAnns (ann : List (List String)) : Except PyErr (List (Int × Ann)) :=
  match exMapList parseAnnLine ann with
  | .ok ps => .ok (dictOfPairs ps)
  | .error .indexE => .ok []
  | .error .valueE => .error .valueE

/-- The text half of convert: drop lines equal to a bare newline, strip
newlines, enumerate. -/
def convertText (txt : List String) : List (Nat × String) :=
  ((txt.filter (fun te => te ≠ "\n")).map (fun te => strReplaceAll te "\n" "")).enum

/-- convert from amica_processing.py. -/
def convert (ann : List (List String)) (txt : List String) :
    Except PyErr (List (Nat × String) × List (Int × Ann)) :=
  (convertAnns ann).map (fun a => (convertText txt, a))

/- ### amica_processing.py : entry_to_data -/

/-- labels[label].append(text) with KeyError fallback: existing keys keep
their position, new keys are appended. -/
def updLabels : List (String × List (Option String)) → String → Option String →
    List (String × List (Option String))
  | [], lab, tx => [(lab, [tx])]
  | (k, v) :: rest, lab, tx =>
    if k = lab then (k, v ++ [tx]) :: rest else (k, v) :: updLabels rest lab tx

/-- Lookup in the labels dictionary. -/
def getLabels : List (String × List (Option String)) → String → Option (List (Option String))
  | [], _ => none
  | (k, v) :: rest, lab => if k = lab then some v else getLabels rest lab

/-- The test position in annotations / lookup annotations[position]. -/
def annAt (anns : List (Int × Ann)) (p : Nat) : Option Ann := assocFind anns (p : Int)

/-- The body of entry_to_data's inner conditional: a width-one span sets the
macro label, any other span appends its text under its label. -/
def stepAnn (st : List (String × List (Option String)) × Option String) (a : Ann) :
    List (String × List (Option String)) × Option String :=
  if width1 a then (st.1, some a.label) else (updLabels st.1 a.label a.text, st.2)

/-- The character walk over one sentence: n characters starting at cursor
position pos. -/
def sentLoop (anns : List (Int × Ann)) :
    Nat → Nat → (List (String × List (Option String)) × Option String) →
    (List (String × List (Option String)) × Option String)
  | _, 0, st => st
  | pos, n + 1, st =>
    match annAt anns pos with
    | some a => sentLoop anns (pos + 1) n (stepAnn st a)
    | none => sentLoop anns (pos + 1) n st

/-- The scope expression of entry_to_data (source line 159). -/
def scopeFor (fname : String) (idx : Nat) : String :=
  if hasSub fname "ask" then (if idx % 2 = 0 then "q" else "a") else "?"

/-- One per-sentence record of the data dictionary. -/
structure SentenceRecord where
  sentence : String
  labels : List (String × List (Option String))
  macLabel : Option String
  scope : String
deriving Repr, DecidableEq

/-- The sentence loop of entry_to_data: walk each sentence's characters,
advance the cursor by one extra unit between sentences, store the record
with the pilcrow-space marker removed. -/
def entryLoop (anns : List (Int × Ann)) (fname : String) :
    List (Nat × String) → Nat → List (Nat × SentenceRecord)
  | [], _ => []
  | (idx, snt) :: rest, pos =>
    let lm := sentLoop anns pos snt.length ([], none)
    (idx, ⟨strReplaceAll snt "¶ " "", lm.1, lm.2, scopeFor fname idx⟩) ::
      entryLoop anns fname rest (pos + snt.length + 1)

def insSorted (x : Nat × String) : List (Nat × String) → List (Nat × String)
  | [] => [x]
  | y :: rest => if x.1 ≤ y.1 then x :: y :: rest else y :: insSorted x rest

/-- OrderedDict(sorted(text_lines.items())): process sentences in ascending
key order. -/
def sortPairs : List (Nat × String) → List (Nat × String)
  | [] => []
  | x :: rest => insSorted x (sortPairs rest)

/-- entry_to_data from amica_processing.py (the data dictionary it fills). -/
def entry_to_data (fname : String) (anns : List (Int × Ann))
    (textLines : List (Nat × String)) : List (Nat × SentenceRecord) :=
  entryLoop anns fname (sortPairs textLines) 0

/- ### amica_processing.py : files_to_dict and store_csv_json -/

/-- One value of the dictionary files_to_dict builds. -/
structure Entry where
  data : List (Nat × SentenceRecord)
  anns : List (Int × Ann)
  text : List (Nat × String)
deriving Repr, DecidableEq

/-- file_name.split('/')[-1]. -/
def basename (s : String) : String := (pySplitStr s "/").getLastD ""

def mkEntry (fname : String) (anns : List (Int × Ann)) (textm : List (Nat × String)) : Entry :=
  ⟨entry_to_data fname anns textm, anns, textm⟩

/-- files_to_dict from amica_processing.py, over already-read file triples
(path, annotation lines, text lines).  A ValueError from convert propagates
out of the whole loop. -/
def files_to_dict (files : List (String × List (List String) × List String)) :
    Except PyErr (List (String × Entry)) :=
  exMapList (fun f => (convert f.2.1 f.2.2).map (fun p => (basename f.1, mkEntry f.1 p.2 p.1)))
    files

/-- The annotations generator of amica_processing.py over a modelled
directory: triples whose annotation or text file is missing are skipped and
counted as errors, the others are yielded and counted as loaded; the final
print reports (err, load). -/
def readFiles {A T : Type} : List (String × Option A × Option T) →
    List (String × A × T) × Nat × Nat
  | [] => ([], 0, 0)
  | (floc, oa, ot) :: rest =>
    let out := readFiles rest
    match oa, ot with
    | some a, some t => ((floc, a, t) :: out.1, out.2.1, out.2.2 + 1)
    | _, _ => (out.1, out.2.1 + 1, out.2.2)

/-- The label cell of one CSV row of store_csv_json: all keys joined with
', ' (or only the first when flat), with the falsy empty string rendered as
Negative. -/
def labelCell (labels : List (String × List (Option String))) (flat : Bool) : String :=
  let keys := labels.map (·.1)
  let j := pyJoin ", " (if flat then keys.take 1 else keys)
  if j = "" then "Negative" else j

/-- The macro cell of one CSV row of store_csv_json: falsy values (None and
the empty string) render as Negative. -/
def macCell (m : Option String) : String :=
  match m with
  | none => "Negative"
  | some s => if s = "" then "Negative" else s

/-- The row loop of store_csv_json (header row omitted). -/
def csvRows (data : List (String × Entry)) (flat : Bool) : List (List String) :=
  data.flatMap (fun fe => fe.2.data.map (fun ir =>
    [fe.1, ir.2.scope, labelCell ir.2.labels flat, macCell ir.2.macLabel, ir.2.sentence]))

/- ### JSON serialization model for store_csv_json / round-trip -/

/-- JSON values; the document json.dump writes is this tree (sort_keys only
reorders object keys in the text, which does not change the mapping). -/
inductive JVal where
  | jnull
  | jstr (s : String)
  | jnum (n : Int)
  | jarr (l : List JVal)
  | jobj (l : List (String × JVal))

def encOptStr : Option String → JVal
  | none => .jnull
  | some s => .jstr s

def encLabels (labels : List (String × List (Option String))) : JVal :=
  .jobj (labels.map (fun kv => (kv.1, .jarr (kv.2.map encOptStr))))

/-- json.dump image of one sentence record (a Python dict with string keys). -/
def encRecord (r : SentenceRecord) : JVal :=
  .jobj [("sentence", .jstr r.sentence), ("labels", encLabels r.labels),
         ("macro", encOptStr r.macLabel), ("scope", .jstr r.scope)]

def encAnn (a : Ann) : JVal :=
  .jobj [("t", .jnum a.t), ("index", .jarr (a.index.map .jnum)),
         ("text", encOptStr a.text), ("label", .jstr a.label)]

/-- json.dump image of one file entry; integer dict keys become their str()
form, as json.dump converts them. -/
def encEntry (e : Entry) : JVal :=
  .jobj [("data", .jobj (e.data.map (fun ir => (pyStrNat ir.1, encRecord ir.2)))),
         ("annotations", .jobj (e.anns.map (fun ia => (pyStrInt ia.1, encAnn ia.2)))),
         ("text", .jobj (e.text.map (fun it => (pyStrNat it.1, .jstr it.2))))]

def encodeTop (data : List (String × Entry)) : JVal :=
  .jobj (data.map (fun fe => (fe.1, encEntry fe.2)))

def jGetField : JVal → String → Option JVal
  | .jobj l, k => assocFind l k
  | _, _ => none

def decOptStr : JVal → Option (Option String)
  | .jnull => some none
  | .jstr s => some (some s)
  | _ => none

def decStr : JVal → Option String
  | .jstr s => some s
  | _ => none

def decLabelsEntry : String × JVal → Option (String × List (Option String))
  | (k, .jarr items) => (optMapList decOptStr items).map (fun v => (k, v))
  | _ => none

def decLabels : JVal → Option (List (String × List (Option String)))
  | .jobj l => optMapList decLabelsEntry l
  | _ => none

/-- Reading the documented fields of one re-imported sentence record. -/
def decRecordFields (v : JVal) :
    Option (List (String × List (Option String)) × Option String × String) := do
  let lj ← jGetField v "labels"
  let labels ← decLabels lj
  let mj ← jGetField v "macro"
  let mac ← decOptStr mj
  let sj ← jGetField v "scope"
  let scope ← decStr sj
  pure (labels, mac, scope)

/-- Navigate the re-imported JSON document to one sentence's documented
fields: file key, then "data", then the stringified sentence index. -/
def extractFields (doc : JVal) (fn : String) (sidx : String) :
    Option (List (String × List (Option String)) × Option String × String) := do
  let ej ← jGetField doc fn
  let dj ← jGetField ej "data"
  let rj ← jGetField dj sidx
  decRecordFields rj

/-- The same fields read off the in-memory structure. -/
def origFields (data : List (String × Entry)) (fn : String) (idx : Nat) :
    Option (List (String × List (Option String)) × Option String × String) :=
  (assocFind data fn).bind (fun e =>
    (assocFind e.data idx).map (fun r => (r.labels, r.macLabel, r.scope)))

/- ### cursor geometry for entry_to_data -/

/-- The cursor position at which sentence n starts: each earlier sentence
contributes its length plus one separator unit. -/
def basePos : List String → Nat → Nat
  | _, 0 => 0
  | [], _ + 1 => 0
  | s :: ss, n + 1 => s.length + 1 + basePos ss n

/-- The position one past the last character of the last sentence. -/
def lastEnd (sents : List String) : Nat := basePos sents sents.length - 1

/-- Removing the annotation stored at start offset p. -/
def eraseAnnAt (p : Nat) (anns : List (Int × Ann)) : List (Int × Ann) :=
  anns.filter (fun kv => kv.1 ≠ (p : Int))

/-- The annotation hits of one sentence walk, in cursor order. -/
def annHits (anns : List (Int × Ann)) (base len : Nat) : List Ann :=
  (List.range len).filterMap (fun c => annAt anns (base + c))

/- ### General lemmas about the built-in models -/

theorem clean_eq_map (series : List String) : clean series = series.map cleanText := by
  induction series with
  | nil => rfl
  | cons t rest ih => simp [clean, ih]

theorem splitWSAux_sound : ∀ (l acc : List Char), (∀ c ∈ acc, pyIsSpace c = false) →
    ∀ t ∈ splitWSAux l acc, t ≠ [] ∧ ∀ c ∈ t, pyIsSpace c = false ∧ (c ∈ l ∨ c ∈ acc) := by
  intro l
  induction l with
  | nil =>
    intro acc hacc t ht
    by_cases h : acc = []
    · simp [splitWSAux, h] at ht
    · simp [splitWSAux, h] at ht
      subst ht
      refine ⟨by simpa using h, ?_⟩
      intro c hc
      rw [List.mem_reverse] at hc
      exact ⟨hacc c hc, Or.inr hc⟩
  | cons a rest ih =>
    intro acc hacc t ht
    by_cases hsp : pyIsSpace a
    · by_cases h : acc = []
      · simp [splitWSAux, hsp, h] at ht
        obtain ⟨hne, hmem⟩ := ih [] (by simp) t ht
        refine ⟨hne, fun c hc => ?_⟩
        obtain ⟨h1, h2⟩ := hmem c hc
        exact ⟨h1, Or.inl (by simp at h2 ⊢; tauto)⟩
      · simp [splitWSAux, hsp, h] at ht
        rcases ht with ht | ht
        · subst ht
          refine ⟨by simpa using h, ?_⟩
          intro c hc
          rw [List.mem_reverse] at hc
          exact ⟨hacc c hc, Or.inr hc⟩
        · obtain ⟨hne, hmem⟩ := ih [] (by simp) t ht
          refine ⟨hne, fun c hc => ?_⟩
          obtain ⟨h1, h2⟩ := hmem c hc
          exact ⟨h1, Or.inl (by simp at h2 ⊢; tauto)⟩
    · simp only [splitWSAux, hsp] at ht
      rw [if_neg (by simp [hsp])] at ht
      obtain ⟨hne, hmem⟩ := ih (a :: acc)
        (by intro c hc; rcases List.mem_cons.mp hc with h | h
            · subst h; simpa using hsp
            · exact hacc c h) t ht
      refine ⟨hne, fun c hc => ?_⟩
      obtain ⟨h1, h2⟩ := hmem c hc
      refine ⟨h1, ?_⟩
      rcases h2 with h2 | h2
      · exact Or.inl (List.mem_cons_of_mem _ h2)
      · rcases List.mem_cons.mp h2 with h3 | h3
        · exact Or.inl (by simp [h3])
        · exact Or.inr h3

theorem splitWS_sound (l : List Char) :
    ∀ t ∈ splitWS l, t ≠ [] ∧ ∀ c ∈ t, pyIsSpace c = false ∧ c ∈ l := by
  intro t ht
  obtain ⟨hne, hmem⟩ := splitWSAux_sound l [] (by simp) t ht
  refine ⟨hne, fun c hc => ?_⟩
  obtain ⟨h1, h2⟩ := hmem c hc
  exact ⟨h1, by simpa using h2⟩

theorem mem_pyStrip {c : Char} {l : List Char} (h : c ∈ pyStrip l) : c ∈ l := by
  unfold pyStrip at h
  rw [List.mem_reverse] at h
  have h2 : c ∈ (l.dropWhile pyIsSpace).reverse := (List.dropWhile_sublist _).mem h
  rw [List.mem_reverse] at h2
  exact (List.dropWhile_sublist _).mem h2

theorem noConsecSpace_of_no_space : ∀ l : List Char, (∀ c ∈ l, c ≠ ' ') →
    noConsecSpace l = true := by
  intro l
  induction l with
  | nil => intro; rfl
  | cons a rest ih =>
    intro h
    cases rest with
    | nil => rfl
    | cons b r =>
      have ha : a ≠ ' ' := h a (by simp)
      have hr := ih (fun c hc => h c (List.mem_cons_of_mem _ hc))
      simp [noConsecSpace, ha, hr]

theorem noConsecSpace_append : ∀ (xs ys : List Char), noConsecSpace xs = true →
    noConsecSpace ys = true →
    (xs.getLast? = some ' ' → ys.head? = some ' ' → False) →
    noConsecSpace (xs ++ ys) = true := by
  intro xs
  induction xs with
  | nil => intro ys _ hy _; simpa using hy
  | cons a rest ih =>
    intro ys hx hy hb
    cases rest with
    | nil =>
      cases ys with
      | nil => rfl
      | cons y r =>
        have hab : ¬(a = ' ' ∧ y = ' ') := by
          intro ⟨h1, h2⟩
          exact hb (by simp [h1]) (by simp [h2])
        have hneq : (!(a = ' ' && y = ' ')) = true := by
          by_cases h1 : a = ' '
          · by_cases h2 : y = ' '
            · exact absurd ⟨h1, h2⟩ hab
            · simp [h1, h2]
          · simp [h1]
        simp only [List.singleton_append, noConsecSpace, Bool.and_eq_true]
        exact ⟨hneq, hy⟩
    | cons b r =>
      have h1 : (!(a = ' ' && b = ' ')) = true := by
        have := hx
        simp only [noConsecSpace, Bool.and_eq_true] at this
        exact this.1
      have h2 : noConsecSpace (b :: r) = true := by
        have := hx
        simp only [noConsecSpace, Bool.and_eq_true] at this
        exact this.2
      have h3 : noConsecSpace ((b :: r) ++ ys) = true := by
        refine ih ys h2 hy ?_
        intro hl
        exact hb (by rw [List.getLast?_cons_cons]; exact hl)
      simp only [List.cons_append, noConsecSpace, Bool.and_eq_true]
      exact ⟨h1, by simpa using h3⟩

theorem joinWith_ne_nil : ∀ (ts : List (List Char)), (∀ t ∈ ts, t ≠ []) → ts ≠ [] →
    joinWith [' '] ts ≠ [] := by
  intro ts
  cases ts with
  | nil => simp
  | cons t rest =>
    intro h _
    cases rest with
    | nil => exact h t (by simp)
    | cons t2 r =>
      have : t ≠ [] := h t (by simp)
      simp [joinWith, this]

theorem joinWith_space_props : ∀ ts : List (List Char),
    (∀ t ∈ ts, t ≠ [] ∧ ∀ c ∈ t, c ≠ ' ') →
    (joinWith [' '] ts).head? ≠ some ' ' ∧ (joinWith [' '] ts).getLast? ≠ some ' ' ∧
      noConsecSpace (joinWith [' '] ts) = true := by
  intro ts
  induction ts with
  | nil => intro; simp [joinWith, noConsecSpace]
  | cons t rest ih =>
    intro h
    obtain ⟨hne, hns⟩ := h t (by simp)
    cases rest with
    | nil =>
      refine ⟨?_, ?_, noConsecSpace_of_no_space t hns⟩
      · intro hc
        have hc2 : t.head? = some ' ' := hc
        exact hns ' ' (List.mem_of_mem_head? hc2) rfl
      · intro hc
        have hc2 : t.getLast? = some ' ' := hc
        exact hns ' ' (List.mem_of_mem_getLast? hc2) rfl
    | cons t2 r =>
      obtain ⟨ihh, ihl, ihn⟩ := ih (fun u hu => h u (List.mem_cons_of_mem _ hu))
      have hrec_ne : joinWith [' '] (t2 :: r) ≠ [] := by
        refine joinWith_ne_nil _ (fun u hu => (h u (List.mem_cons_of_mem _ hu)).1) (by simp)
      have hjoin : joinWith [' '] (t :: t2 :: r) = t ++ (' ' :: joinWith [' '] (t2 :: r)) := by
        simp [joinWith]
      refine ⟨?_, ?_, ?_⟩
      · rw [hjoin]
        intro hc
        rw [List.head?_append] at hc
        cases t with
        | nil => simp at hne
        | cons c cr =>
          simp at hc
          exact hns c (by simp) hc
      · rw [hjoin]
        intro hc
        rw [List.getLast?_append] at hc
        have hy : (' ' :: joinWith [' '] (t2 :: r)).getLast? = some ' ' := by
          cases hgl : (' ' :: joinWith [' '] (t2 :: r)).getLast? with
          | none => simp [List.getLast?_eq_none_iff] at hgl
          | some x => simp [hgl] at hc ⊢; exact hc
        cases hj : joinWith [' '] (t2 :: r) with
        | nil => exact hrec_ne hj
        | cons y yr =>
          rw [hj, List.getLast?_cons_cons] at hy
          exact ihl (by rw [hj]; exact hy)
      · rw [hjoin]
        refine noConsecSpace_append t _ (noConsecSpace_of_no_space t hns) ?_ ?_
        · cases hj : joinWith [' '] (t2 :: r) with
          | nil => exact absurd hj hrec_ne
          | cons y yr =>
            have hyne : y ≠ ' ' := by
              intro hy
              exact ihh (by rw [hj, hy]; rfl)
            simp only [noConsecSpace, Bool.and_eq_true]
            refine ⟨by simp [hyne], by simpa [hj] using ihn⟩
        · intro hl _
          have := List.mem_of_mem_getLast? hl
          exact hns ' ' this rfl

theorem cleanText_char_mem {s : String} {c : Char} (h : c ∈ (cleanText s).data) :
    c.toNat < 128 ∧ removedPunct.contains c = false := by
  have hsp : (' ' : Char).toNat < 128 ∧ removedPunct.contains ' ' = false := by decide
  unfold cleanText at h
  set noPunct := s.data.map (fun c => if removedPunct.contains c then ' ' else c) with hnp
  set asciiOnly := (pyStrip noPunct).filter (fun c => c.toNat < 128) with hao
  set toks := (splitWS asciiOnly).filter (fun t => t ≠ [' ']) with htk
  -- membership in the joined list comes from a token or from the separator
  have hj : ∀ (ts : List (List Char)) (c2 : Char), c2 ∈ joinWith [' '] ts →
      (∃ t ∈ ts, c2 ∈ t) ∨ c2 = ' ' := by
    intro ts
    induction ts with
    | nil => intro c2 hc; simp [joinWith] at hc
    | cons t rest ih =>
      intro c2 hc
      cases rest with
      | nil => exact Or.inl ⟨t, by simp, hc⟩
      | cons t2 r =>
        have : c2 ∈ t ++ (' ' :: joinWith [' '] (t2 :: r)) := by
          simpa [joinWith] using hc
        rw [List.mem_append] at this
        rcases this with h1 | h1
        · exact Or.inl ⟨t, by simp, h1⟩
        · rcases List.mem_cons.mp h1 with h2 | h2
          · exact Or.inr h2
          · rcases ih c2 h2 with ⟨t3, ht3, hc3⟩ | h3
            · exact Or.inl ⟨t3, List.mem_cons_of_mem _ ht3, hc3⟩
            · exact Or.inr h3
  rcases hj toks c h with ⟨t, ht, hct⟩ | hc
  · have ht2 : t ∈ splitWS asciiOnly := List.mem_of_mem_filter ht
    have := (splitWS_sound asciiOnly t ht2).2 c hct
    have hmem : c ∈ asciiOnly := this.2
    rw [hao, List.mem_filter] at hmem
    refine ⟨by simpa using hmem.2, ?_⟩
    have hmem2 : c ∈ noPunct := mem_pyStrip hmem.1
    rw [hnp] at hmem2
    obtain ⟨c0, _, hc0⟩ := List.mem_map.mp hmem2
    by_cases hp : removedPunct.contains c0
    · rw [if_pos hp] at hc0; rw [← hc0]; exact hsp.2
    · rw [if_neg hp] at hc0; rw [← hc0]; simpa using hp
  · subst hc; exact hsp


theorem cleanText_spacing (s : String) :
    (cleanText s).data.head? ≠ some ' ' ∧ (cleanText s).data.getLast? ≠ some ' ' ∧
      noConsecSpace (cleanText s).data = true := by
  unfold cleanText
  apply joinWith_space_props
  intro t ht
  have ht2 := List.mem_of_mem_filter ht
  obtain ⟨hne, hmem⟩ := splitWS_sound _ t ht2
  refine ⟨hne, fun c hc => ?_⟩
  have := (hmem c hc).1
  intro hsp
  rw [hsp] at this
  simp [pyIsSpace, pyWsCodes] at this

/-- Claim C10: for every input series, clean returns exactly one output
string per input element in input order; every output string contains only
ASCII characters, none of the removed punctuation characters, and has no
leading, trailing, or consecutive space characters. -/
theorem c10_clean_output :
    (∀ series : List String, clean series = series.map cleanText) ∧
    (∀ s : String,
      (∀ c ∈ (cleanText s).data, c.toNat < 128 ∧ removedPunct.contains c = false) ∧
      (cleanText s).data.head? ≠ some ' ' ∧
      (cleanText s).data.getLast? ≠ some ' ' ∧
      noConsecSpace (cleanText s).data = true) :=
  ⟨clean_eq_map, fun s => ⟨fun _ hc => cleanText_char_mem hc, cleanText_spacing s⟩⟩

/-- Concrete instantiation of the C10 theorem. -/
theorem c10_witness :
    clean ["a -(x)- b!", "ok"] = ["a -(x)- b!", "ok"].map cleanText ∧
    ('a'.toNat < 128 ∧ removedPunct.contains 'a' = false) ∧
    noConsecSpace (cleanText "a -(x)- b!").data = true :=
  ⟨c10_clean_output.1 ["a -(x)- b!", "ok"],
   (c10_clean_output.2 "a -(x)- b!").1 'a' (by decide),
   (c10_clean_output.2 "a -(x)- b!").2.2.2⟩

/- ### C2 : placeholder rules of process_merge -/

/-- Claim C2: for every entity processed by the placeholder merger, a
Location span with type na / pre / post / unknown / absent maps to
LOCATION_unknown and any other type t to LOCATION_t; a Person span with
gender na / the string None / absent maps to PERSON_gender_unknown and any
other gender g to PERSON_g; every URL or Organization span maps to the URL
placeholder; every UserID span maps to the USER_ID placeholder except when
the raw matched substring is exactly "i" or "t", in which case no
replacement pair is recorded for it. -/
theorem c2_placeholder_rules :
    ∀ (text : String) (locs persons : List (Nat × Nat × Option String))
      (urls usrids : List (Nat × Nat)),
    (∀ p ∈ locs, (substrPy text p.1 p.2.1, locPlaceholder p.2.2) ∈ locReplacements text locs) ∧
    (∀ typ : Option String,
      typ = none ∨ typ = some "na" ∨ typ = some "pre" ∨ typ = some "post" ∨ typ = some "unknown" →
      locPlaceholder typ = "<LOCATION_unknown>") ∧
    (∀ t1 : String, t1 ≠ "na" → t1 ≠ "pre" → t1 ≠ "post" → t1 ≠ "unknown" →
      locPlaceholder (some t1) = "<LOCATION_" ++ t1 ++ ">") ∧
    (∀ p ∈ persons,
      (substrPy text p.1 p.2.1, personPlaceholder p.2.2) ∈ personReplacements text persons) ∧
    (∀ g : Option String, g = none ∨ g = some "na" ∨ g = some "None" →
      personPlaceholder g = "<PERSON_gender_unknown>") ∧
    (∀ g1 : String, g1 ≠ "na" → g1 ≠ "None" →
      personPlaceholder (some g1) = "<PERSON_" ++ g1 ++ ">") ∧
    (∀ pr ∈ urlReplacements text urls, pr.2 = "<URL>") ∧
    (∀ u ∈ urls, (substrPy text u.1 u.2, "<URL>") ∈ urlReplacements text urls) ∧
    (∀ pr : String × String, pr ∈ usridReplacements text usrids ↔
      ∃ u ∈ usrids, substrPy text u.1 u.2 ≠ "i" ∧ substrPy text u.1 u.2 ≠ "t" ∧
        pr = (substrPy text u.1 u.2, "<USER_ID>")) ∧
    (∀ ph : String, ("i", ph) ∉ usridReplacements text usrids ∧
      ("t", ph) ∉ usridReplacements text usrids) := by
  intro text locs persons urls usrids
  have husr : ∀ pr : String × String, pr ∈ usridReplacements text usrids ↔
      ∃ u ∈ usrids, substrPy text u.1 u.2 ≠ "i" ∧ substrPy text u.1 u.2 ≠ "t" ∧
        pr = (substrPy text u.1 u.2, "<USER_ID>") := by
    intro pr
    unfold usridReplacements
    rw [List.mem_filterMap]
    constructor
    · rintro ⟨u, hu, hf⟩
      by_cases h : substrPy text u.1 u.2 = "i" ∨ substrPy text u.1 u.2 = "t"
      · rw [if_pos h] at hf; cases hf
      · rw [if_neg h] at hf
        push_neg at h
        exact ⟨u, hu, h.1, h.2, (Option.some_inj.mp hf).symm⟩
    · rintro ⟨u, hu, h1, h2, hpr⟩
      refine ⟨u, hu, ?_⟩
      rw [if_neg (by push_neg; exact ⟨h1, h2⟩)]
      rw [hpr]
  refine ⟨?_, ?_, ?_, ?_, ?_, ?_, ?_, ?_, husr, ?_⟩
  · intro p hp
    exact List.mem_map_of_mem (fun t => (substrPy text t.1 t.2.1, locPlaceholder t.2.2)) hp
  · rintro typ (h | h | h | h | h) <;> simp [locPlaceholder, h]
  · intro t1 h1 h2 h3 h4
    rw [locPlaceholder, if_neg (by simp [h1, h2, h3, h4])]
    rfl
  · intro p hp
    exact List.mem_map_of_mem (fun t => (substrPy text t.1 t.2.1, personPlaceholder t.2.2)) hp
  · rintro g (h | h | h) <;> simp [personPlaceholder, h]
  · intro g1 h1 h2
    rw [personPlaceholder, if_neg (by simp [h1, h2])]
    rfl
  · intro pr hpr
    obtain ⟨u, _, hu⟩ := List.mem_map.mp hpr
    rw [← hu]
  · intro u hu
    exact List.mem_map_of_mem (fun t => (substrPy text t.1 t.2, "<URL>")) hu
  · intro ph
    constructor
    · intro hmem
      obtain ⟨u, _, h1, h2, hpr⟩ := (husr _).mp hmem
      exact h1 (by rw [Prod.ext_iff] at hpr; exact hpr.1.symm)
    · intro hmem
      obtain ⟨u, _, h1, h2, hpr⟩ := (husr _).mp hmem
      exact h2 (by rw [Prod.ext_iff] at hpr; exact hpr.1.symm)

/-- Concrete instantiation of the C2 theorem. -/
theorem c2_witness :
    (substrPy "Bob in Paris @bob i" 7 12, locPlaceholder (some "pre"))
        ∈ locReplacements "Bob in Paris @bob i" [(7, 12, some "pre")] ∧
    locPlaceholder (some "pre") = "<LOCATION_unknown>" ∧
    locPlaceholder (some "river") = "<LOCATION_" ++ "river" ++ ">" ∧
    personPlaceholder none = "<PERSON_gender_unknown>" ∧
    personPlaceholder (some "f") = "<PERSON_" ++ "f" ++ ">" ∧
    ((substrPy "Bob in Paris @bob i" 13 17, "<USER_ID>")
        ∈ usridReplacements "Bob in Paris @bob i" [(13, 17), (18, 19)]) ∧
    (("i", "<USER_ID>") ∉ usridReplacements "Bob in Paris @bob i" [(13, 17), (18, 19)]) := by
  obtain ⟨l1, l2, l3, p1, p2, p3, u1, u2, us1, us2⟩ :=
    c2_placeholder_rules "Bob in Paris @bob i" [(7, 12, some "pre")] [] [] [(13, 17), (18, 19)]
  exact ⟨l1 (7, 12, some "pre") (by decide), l2 (some "pre") (by simp),
    l3 "river" (by decide) (by decide) (by decide) (by decide),
    p2 none (by simp), p3 "f" (by decide) (by decide),
    (us1 _).mpr ⟨(13, 17), by decide, by decide, by decide, by decide⟩,
    (us2 "<USER_ID>").1⟩

/- ### C4 : whole-string substitution -/

theorem pySplitF_ne_nil : ∀ (fuel : Nat) (s pat : List Char), pySplitF fuel s pat ≠ [] := by
  intro fuel
  induction fuel with
  | zero => intro s pat; simp [pySplitF]
  | succ f ih =>
    intro s pat
    cases s with
    | nil => simp [pySplitF]
    | cons c rest =>
      simp only [pySplitF]
      by_cases h : pat.isPrefixOf (c :: rest)
      · rw [if_pos h]; simp
      · rw [if_neg h]
        cases hts : pySplitF f rest pat with
        | nil => exact absurd hts (ih rest pat)
        | cons t tr => simp

theorem joinWith_cons_of_ne_nil {sep : List Char} {t : List Char} {ts : List (List Char)}
    (h : ts ≠ []) : joinWith sep (t :: ts) = t ++ sep ++ joinWith sep ts := by
  cases ts with
  | nil => exact absurd rfl h
  | cons t2 r => rfl

theorem joinWith_modifyHead_cons {sep : List Char} {c : Char} {ts : List (List Char)}
    (h : ts ≠ []) :
    joinWith sep (ts.modifyHead (fun t => c :: t)) = c :: joinWith sep ts := by
  cases ts with
  | nil => exact absurd rfl h
  | cons t tr =>
    cases tr with
    | nil => rfl
    | cons t2 r => rfl

theorem prefix_append_drop {pat s : List Char} (h : pat.isPrefixOf s = true) :
    pat ++ s.drop pat.length = s := by
  rw [ List.isPrefixOf_iff_prefix] at h
  obtain ⟨t, ht⟩ := h
  rw [← ht, List.drop_left]

theorem replaceAllF_eq_joinWith : ∀ (fuel : Nat) (s pat rep : List Char), pat ≠ [] →
    s.length ≤ fuel → replaceAllF fuel s pat rep = joinWith rep (pySplitF fuel s pat) := by
  intro fuel
  induction fuel with
  | zero =>
    intro s pat rep _ hlen
    have : s = [] := by
      cases s with
      | nil => rfl
      | cons c r => simp at hlen
    subst this
    rfl
  | succ f ih =>
    intro s pat rep hpat hlen
    cases s with
    | nil => rfl
    | cons c rest =>
      simp only [replaceAllF, pySplitF]
      by_cases h : pat.isPrefixOf (c :: rest)
      · rw [if_pos h, if_pos h]
        have hplen : 1 ≤ pat.length := by
          cases pat with
          | nil => exact absurd rfl hpat
          | cons p pr => simp
        have hdrop : ((c :: rest).drop pat.length).length ≤ f := by
          rw [List.length_drop, List.length_cons]
          simp only [List.length_cons] at hlen
          omega
        rw [joinWith_cons_of_ne_nil (pySplitF_ne_nil f _ pat)]
        rw [ih _ pat rep hpat hdrop]
        simp
      · rw [if_neg h, if_neg h]
        have hlen2 : rest.length ≤ f := by
          simp only [List.length_cons] at hlen
          omega
        rw [joinWith_modifyHead_cons (pySplitF_ne_nil f rest pat)]
        rw [ih rest pat rep hpat hlen2]

theorem joinWith_pySplitF_self : ∀ (fuel : Nat) (s pat : List Char), pat ≠ [] →
    s.length ≤ fuel → joinWith pat (pySplitF fuel s pat) = s := by
  intro fuel
  induction fuel with
  | zero =>
    intro s pat _ hlen
    have : s = [] := by
      cases s with
      | nil => rfl
      | cons c r => simp at hlen
    subst this
    rfl
  | succ f ih =>
    intro s pat hpat hlen
    cases s with
    | nil => rfl
    | cons c rest =>
      simp only [pySplitF]
      by_cases h : pat.isPrefixOf (c :: rest)
      · rw [if_pos h]
        have hplen : 1 ≤ pat.length := by
          cases pat with
          | nil => exact absurd rfl hpat
          | cons p pr => simp
        have hdrop : ((c :: rest).drop pat.length).length ≤ f := by
          rw [List.length_drop, List.length_cons]
          simp only [List.length_cons] at hlen
          omega
        rw [joinWith_cons_of_ne_nil (pySplitF_ne_nil f _ pat)]
        rw [ih _ pat hpat hdrop]
        simpa using prefix_append_drop h
      · rw [if_neg h]
        have hlen2 : rest.length ≤ f := by
          simp only [List.length_cons] at hlen
          omega
        rw [joinWith_modifyHead_cons (pySplitF_ne_nil f rest pat)]
        rw [ih rest pat hpat hlen2]

/-- Claim C4: substitution in the placeholder merger is sequential literal
whole-string replacement over the entire response text, in the fixed pair
order Location, Person, URL, UserID; each replace rewrites every
non-overlapping occurrence of the raw substring (the text splits on the raw
substring and is rejoined with the placeholder). -/
theorem c4_substitution :
    (∀ v : ProcVal, mergeText v =
      (locReplacements v.text v.locs ++ personReplacements v.text v.persons ++
       urlReplacements v.text v.urls ++ usridReplacements v.text v.usrids).foldl
        (fun acc pr => strReplaceAll acc pr.1 pr.2) v.text) ∧
    (∀ s pat rep : List Char, pat ≠ [] →
      replaceAll s pat rep = joinWith rep (pySplit s pat)) ∧
    (∀ s pat : List Char, pat ≠ [] → joinWith pat (pySplit s pat) = s) := by
  refine ⟨fun v => rfl, ?_, ?_⟩
  · intro s pat rep hpat
    rw [replaceAll, if_neg hpat, pySplit]
    exact replaceAllF_eq_joinWith s.length s pat rep hpat (le_refl _)
  · intro s pat hpat
    rw [pySplit]
    exact joinWith_pySplitF_self s.length s pat hpat (le_refl _)

/-- Concrete instantiation of the C4 theorem. -/
theorem c4_witness :
    mergeText ⟨"ab Paris cd Paris", [], [], [], [(3, 8, some "pre")]⟩ =
      (locReplacements "ab Paris cd Paris" [(3, 8, some "pre")] ++
       personReplacements "ab Paris cd Paris" [] ++
       urlReplacements "ab Paris cd Paris" [] ++
       usridReplacements "ab Paris cd Paris" []).foldl
        (fun acc pr => strReplaceAll acc pr.1 pr.2) "ab Paris cd Paris" ∧
    replaceAll "ab Paris cd Paris".data "Paris".data "X".data =
      joinWith "X".data (pySplit "ab Paris cd Paris".data "Paris".data) ∧
    joinWith "Paris".data (pySplit "ab Paris cd Paris".data "Paris".data) =
      "ab Paris cd Paris".data :=
  ⟨c4_substitution.1 ⟨"ab Paris cd Paris", [], [], [], [(3, 8, some "pre")]⟩,
   c4_substitution.2.1 "ab Paris cd Paris".data "Paris".data "X".data (by decide),
   c4_substitution.2.2 "ab Paris cd Paris".data "Paris".data (by decide)⟩

/- ### C7 : CSV cells of store_csv_json -/

theorem pyJoin_singleton (sep : String) (k : String) : pyJoin sep [k] = k := rfl

theorem pyJoin_ne_empty {k : String} (ks : List String) (hk : k ≠ "") :
    pyJoin ", " (k :: ks) ≠ "" := by
  cases ks with
  | nil =>
    rw [pyJoin_singleton]
    exact hk
  | cons k2 r =>
    intro h
    have hdata : (pyJoin ", " (k :: k2 :: r)).data = [] := by rw [h]
    have : (pyJoin ", " (k :: k2 :: r)).data =
        k.data ++ (", ".data ++ joinWith ", ".data ((k2 :: r).map String.data)) := by
      simp [pyJoin, joinWith]
    rw [this] at hdata
    rcases List.append_eq_nil.mp hdata with ⟨_, h2⟩
    rcases List.append_eq_nil.mp h2 with ⟨h3, _⟩
    simp at h3

/-- Claim C7: in CSV export, an empty labels mapping and a None macro label
both render as the literal Negative; with the flatten flag the label cell is
the first label key in insertion order, without it the cell is all label
keys joined with comma-space in insertion order; every sentence of every
entry contributes its row. -/
theorem c7_csv_cells :
    (∀ flat : Bool, labelCell [] flat = "Negative") ∧
    macCell none = "Negative" ∧
    (∀ (k : String) (v : List (Option String)) (rest : List (String × List (Option String))),
      k ≠ "" → labelCell ((k, v) :: rest) true = k) ∧
    (∀ labels : List (String × List (Option String)),
      (∀ p ∈ labels, p.1 ≠ "") → labels ≠ [] →
      labelCell labels false = pyJoin ", " (labels.map (fun p => p.1))) ∧
    (∀ (data : List (String × Entry)) (flat : Bool) (fn : String) (e : Entry)
        (idx : Nat) (r : SentenceRecord),
      (fn, e) ∈ data → (idx, r) ∈ e.data →
      [fn, r.scope, labelCell r.labels flat, macCell r.macLabel, r.sentence]
        ∈ csvRows data flat) := by
  refine ⟨?_, rfl, ?_, ?_, ?_⟩
  · intro flat
    cases flat <;> rfl
  · intro k v rest hk
    have : labelCell ((k, v) :: rest) true = if k = "" then "Negative" else k := by
      simp [labelCell, pyJoin_singleton]
    rw [this, if_neg hk]
  · intro labels hne hnil
    cases labels with
    | nil => exact absurd rfl hnil
    | cons p rest =>
      have hk : p.1 ≠ "" := hne p (by simp)
      have hj := pyJoin_ne_empty (rest.map (fun q => q.1)) hk
      simp only [labelCell, List.map_cons]
      rw [if_neg (by simp : ¬(false = true))]
      rw [if_neg (by simpa using hj)]
  · intro data flat fn e idx r hfe hir
    unfold csvRows
    rw [List.mem_flatMap]
    refine ⟨(fn, e), hfe, ?_⟩
    exact List.mem_map_of_mem _ hir

/-- Concrete instantiation of the C7 theorem. -/
theorem c7_witness :
    labelCell [] true = "Negative" ∧
    labelCell [("X", [some "a"]), ("Y", [])] true = "X" ∧
    labelCell [("X", [some "a"]), ("Y", [])] false =
      pyJoin ", " ([("X", [some "a"]), ("Y", ([] : List (Option String)))].map (fun p => p.1)) :=
  ⟨(c7_csv_cells.1 true),
   c7_csv_cells.2.2.1 "X" [some "a"] [("Y", [])] (by decide),
   c7_csv_cells.2.2.2.1 [("X", [some "a"]), ("Y", [])] (by decide) (by decide)⟩

/- ### C5 : scope derivation (corrected) -/

theorem entryLoop_scope (anns : List (Int × Ann)) (fname : String) :
    ∀ (lines : List (Nat × String)) (pos : Nat) (pr : Nat × SentenceRecord),
      pr ∈ entryLoop anns fname lines pos → pr.2.scope = scopeFor fname pr.1 := by
  intro lines
  induction lines with
  | nil => intro pos pr hpr; simp [entryLoop] at hpr
  | cons x rest ih =>
    intro pos pr hpr
    obtain ⟨idx, snt⟩ := x
    simp only [entryLoop, List.mem_cons] at hpr
    rcases hpr with h | h
    · rw [h]
    · exact ih _ pr h

/-- Counterexample to claim C5 as stated: for a file name that does not
contain the token "ask", the stored scope is the literal "?", not
"unknown". -/
theorem c5_counterexample :
    ((entry_to_data "file1" [] [(0, "hello")]).getD 0 (0, ⟨"", [], none, ""⟩)).2.scope = "?" ∧
    ("?" : String) ≠ "unknown" := by
  constructor
  · rfl
  · decide

/-- Claim C5 (amended): when the file name contains the token "ask"
(case-sensitively), the scope of sentence index i is "q" for even i and "a"
for odd i; when it does not, the scope is the literal "?" (the code's
marker for an unknown scope) for every index. -/
theorem c5_scope_amended :
    ∀ (fname : String) (anns : List (Int × Ann)) (textLines : List (Nat × String)),
      ∀ pr ∈ entry_to_data fname anns textLines,
        pr.2.scope =
          if hasSub fname "ask" then (if pr.1 % 2 = 0 then "q" else "a") else "?" := by
  intro fname anns textLines pr hpr
  have := entryLoop_scope anns fname (sortPairs textLines) 0 pr hpr
  rw [this, scopeFor]

/-- Concrete instantiation of the amended C5 theorem. -/
theorem c5_witness :
    ((entry_to_data "dir/ask_f1" [] [(0, "hi"), (1, "yo")]).getD 1 (0, ⟨"", [], none, ""⟩)).2.scope =
      if hasSub "dir/ask_f1" "ask"
      then (if ((entry_to_data "dir/ask_f1" [] [(0, "hi"), (1, "yo")]).getD 1
                  (0, ⟨"", [], none, ""⟩)).1 % 2 = 0 then "q" else "a")
      else "?" :=
  c5_scope_amended "dir/ask_f1" [] [(0, "hi"), (1, "yo")] _ (by decide)

/- ### C3 : macro / labels folding of entry_to_data -/

theorem getLast?_cons_of_ne_nil {α : Type} {a : α} {l : List α} (h : l ≠ []) :
    (a :: l).getLast? = l.getLast? := by
  cases l with
  | nil => exact absurd rfl h
  | cons b r => rw [List.getLast?_cons_cons]

theorem annHits_zero (anns : List (Int × Ann)) (base : Nat) : annHits anns base 0 = [] := rfl

theorem annHits_succ (anns : List (Int × Ann)) (base n : Nat) :
    annHits anns base (n + 1) =
      (match annAt anns base with
       | some a => a :: annHits anns (base + 1) n
       | none => annHits anns (base + 1) n) := by
  unfold annHits
  rw [List.range_succ_eq_map, List.filterMap_cons]
  rw [List.filterMap_map]
  have h2 : List.filterMap ((fun c => annAt anns (base + c)) ∘ Nat.succ) (List.range n) =
      List.filterMap (fun c => annAt anns (base + 1 + c)) (List.range n) := by
    congr 1
    funext c
    show annAt anns (base + Nat.succ c) = annAt anns (base + 1 + c)
    congr 1
    omega
  rw [h2]
  simp only [Nat.add_zero]
  cases annAt anns base <;> rfl

theorem sentLoop_eq_fold (anns : List (Int × Ann)) :
    ∀ (n pos : Nat) (st : List (String × List (Option String)) × Option String),
      sentLoop anns pos n st = (annHits anns pos n).foldl stepAnn st := by
  intro n
  induction n with
  | zero => intro pos st; rw [annHits_zero]; rfl
  | succ m ih =>
    intro pos st
    rw [annHits_succ]
    show (match annAt anns pos with
          | some a => sentLoop anns (pos + 1) m (stepAnn st a)
          | none => sentLoop anns (pos + 1) m st) = _
    cases annAt anns pos with
    | none => exact ih (pos + 1) st
    | some a => rw [List.foldl_cons]; exact ih (pos + 1) (stepAnn st a)

theorem fold_stepAnn_snd :
    ∀ (hits : List Ann) (L : List (String × List (Option String))) (m : Option String),
      (hits.foldl stepAnn (L, m)).2 =
        ((hits.filter width1).getLast?).elim m (fun a => some a.label) := by
  intro hits
  induction hits with
  | nil => intro L m; rfl
  | cons a rest ih =>
    intro L m
    rw [List.foldl_cons]
    by_cases hw : width1 a
    · have hstep : stepAnn (L, m) a = (L, some a.label) := by simp [stepAnn, hw]
      rw [hstep, ih]
      rw [List.filter_cons_of_pos (by simpa using hw)]
      cases hfr : rest.filter width1 with
      | nil => simp
      | cons x xs =>
        rw [List.getLast?_cons_cons]
        cases hgl : (x :: xs).getLast? with
        | none => simp [List.getLast?_eq_none_iff] at hgl
        | some y => simp
    · have hstep : stepAnn (L, m) a = (updLabels L a.label a.text, m) := by
        simp [stepAnn, hw]
      rw [hstep, ih, List.filter_cons_of_neg (by simpa using hw)]

theorem fold_stepAnn_fst :
    ∀ (hits : List Ann) (L : List (String × List (Option String))) (m : Option String),
      (hits.foldl stepAnn (L, m)).1 =
        (hits.filter (fun a => !width1 a)).foldl
          (fun L2 a => updLabels L2 a.label a.text) L := by
  intro hits
  induction hits with
  | nil => intro L m; rfl
  | cons a rest ih =>
    intro L m
    rw [List.foldl_cons]
    by_cases hw : width1 a
    · have hstep : stepAnn (L, m) a = (L, some a.label) := by simp [stepAnn, hw]
      rw [hstep, ih, List.filter_cons_of_neg (by simpa using hw)]
    · have hstep : stepAnn (L, m) a = (updLabels L a.label a.text, m) := by
        simp [stepAnn, hw]
      rw [hstep, ih, List.filter_cons_of_pos (by simpa using hw), List.foldl_cons]

theorem getLabels_updLabels :
    ∀ (L : List (String × List (Option String))) (lab lab2 : String) (tx : Option String),
      getLabels (updLabels L lab tx) lab2 =
        if lab = lab2 then some ((getLabels L lab2).getD [] ++ [tx]) else getLabels L lab2 := by
  intro L
  induction L with
  | nil =>
    intro lab lab2 tx
    by_cases h : lab = lab2
    · subst h; simp [updLabels, getLabels]
    · simp [updLabels, getLabels, h]
  | cons kv rest ih =>
    intro lab lab2 tx
    obtain ⟨k, v⟩ := kv
    by_cases hk : k = lab
    · subst hk
      rw [updLabels, if_pos rfl]
      by_cases h2 : k = lab2
      · subst h2
        simp [getLabels]
      · simp [getLabels, h2]
    · rw [updLabels, if_neg hk]
      by_cases h2 : k = lab2
      · subst h2
        have hne : lab ≠ k := fun h => hk h.symm
        simp [getLabels, hne]
      · simp only [getLabels, if_neg h2]
        exact ih lab lab2 tx

theorem getLabels_fold :
    ∀ (hits : List Ann) (L : List (String × List (Option String))) (lab : String),
      getLabels (hits.foldl (fun L2 a => updLabels L2 a.label a.text) L) lab =
        (if (hits.filter (fun a => a.label == lab)).map Ann.text = []
         then getLabels L lab
         else some ((getLabels L lab).getD [] ++
                    (hits.filter (fun a => a.label == lab)).map Ann.text)) := by
  intro hits
  induction hits with
  | nil => intro L lab; simp
  | cons a rest ih =>
    intro L lab
    rw [List.foldl_cons, ih (updLabels L a.label a.text) lab]
    by_cases hl : a.label = lab
    · rw [List.filter_cons_of_pos (by simp [hl]), List.map_cons]
      simp only [getLabels_updLabels, if_pos hl]
      cases hts : (rest.filter (fun x => x.label == lab)).map Ann.text with
      | nil => simp
      | cons t ts2 => simp
    · rw [List.filter_cons_of_neg (by simp [hl])]
      simp only [getLabels_updLabels, if_neg hl]

theorem entryLoop_length (anns : List (Int × Ann)) (fname : String) :
    ∀ (lines : List (Nat × String)) (pos : Nat),
      (entryLoop anns fname lines pos).length = lines.length := by
  intro lines
  induction lines with
  | nil => intro pos; rfl
  | cons x rest ih =>
    intro pos
    obtain ⟨idx, snt⟩ := x
    simp only [entryLoop, List.length_cons, ih]

theorem entryLoop_getD (anns : List (Int × Ann)) (fname : String) :
    ∀ (lines : List (Nat × String)) (pos n : Nat), n < lines.length →
      (entryLoop anns fname lines pos).getD n (0, ⟨"", [], none, ""⟩) =
        ((lines.getD n (0, "")).1,
         ⟨strReplaceAll (lines.getD n (0, "")).2 "¶ " "",
          (sentLoop anns (pos + basePos (lines.map (fun q => q.2)) n)
            (lines.getD n (0, "")).2.length ([], none)).1,
          (sentLoop anns (pos + basePos (lines.map (fun q => q.2)) n)
            (lines.getD n (0, "")).2.length ([], none)).2,
          scopeFor fname (lines.getD n (0, "")).1⟩) := by
  intro lines
  induction lines with
  | nil => intro pos n h; simp at h
  | cons x rest ih =>
    intro pos n h
    obtain ⟨idx, snt⟩ := x
    cases n with
    | zero =>
      simp only [entryLoop, List.getD_cons_zero, basePos, Nat.add_zero]
    | succ m =>
      simp only [entryLoop, List.getD_cons_succ, List.map_cons]
      rw [ih (pos + snt.length + 1) m (by simpa using h)]
      have harith : pos + snt.length + 1 + basePos (rest.map (fun q => q.2)) m =
          pos + basePos (snt :: rest.map (fun q => q.2)) (m + 1) := by
        show _ = pos + (snt.length + 1 + basePos (rest.map (fun q => q.2)) m)
        omega
      rw [harith]

/-- Claim C3: for each sentence of entry_to_data, a span of width one sets
the record's macro label (the last such span wins) and contributes nothing
to labels; every other span appends its text to labels under its label in
encounter order; a sentence hit by no span has empty labels and no macro
label. -/
theorem c3_span_folding :
    ∀ (fname : String) (anns : List (Int × Ann)) (textLines : List (Nat × String)) (n : Nat),
      n < (sortPairs textLines).length →
      (entry_to_data fname anns textLines).length = (sortPairs textLines).length ∧
      (let sorted := sortPairs textLines
       let snt := (sorted.getD n (0, "")).2
       let hits := annHits anns (basePos (sorted.map (fun q => q.2)) n) snt.length
       let rcd := ((entry_to_data fname anns textLines).getD n (0, ⟨"", [], none, ""⟩)).2
       rcd.macLabel = ((hits.filter width1).getLast?).elim none (fun a => some a.label) ∧
       rcd.labels = (hits.filter (fun a => !width1 a)).foldl
         (fun L a => updLabels L a.label a.text) [] ∧
       (∀ lab : String,
         getLabels rcd.labels lab =
           (if ((hits.filter (fun a => !width1 a)).filter (fun a => a.label == lab)).map Ann.text = []
            then none
            else some (((hits.filter (fun a => !width1 a)).filter
                (fun a => a.label == lab)).map Ann.text))) ∧
       (hits = [] → rcd.labels = [] ∧ rcd.macLabel = none)) := by
  intro fname anns textLines n h
  refine ⟨entryLoop_length anns fname _ 0, ?_⟩
  have hget := entryLoop_getD anns fname (sortPairs textLines) 0 n h
  simp only [Nat.zero_add] at hget
  show _ ∧ _ ∧ _ ∧ _
  rw [show ((entry_to_data fname anns textLines).getD n (0, ⟨"", [], none, ""⟩)).2 =
      (((entry_to_data fname anns textLines).getD n (0, ⟨"", [], none, ""⟩))).2 from rfl]
  unfold entry_to_data
  rw [hget]
  set base := basePos ((sortPairs textLines).map (fun q => q.2)) n with hbase
  set snt := ((sortPairs textLines).getD n (0, "")).2 with hsnt
  rw [sentLoop_eq_fold]
  refine ⟨?_, ?_, ?_, ?_⟩
  · exact fold_stepAnn_snd _ [] none
  · exact fold_stepAnn_fst _ [] none
  · intro lab
    rw [fold_stepAnn_fst _ [] none, getLabels_fold]
    by_cases hts : ((annHits anns base snt.length).filter (fun a => !width1 a)).filter
        (fun a => a.label == lab) = []
    · rw [if_pos (by rw [hts]; rfl), if_pos (by rw [hts]; rfl)]
      rfl
    · rw [if_neg (by simpa using hts), if_neg (by simpa using hts)]
      simp [getLabels]
  · intro hhits
    rw [hhits]
    exact ⟨rfl, rfl⟩

/-- Concrete instantiation of the C3 theorem. -/
theorem c3_witness :
    (entry_to_data "f" [(0, ⟨1, [0, 3], some "hel", "LAB"⟩), (6, ⟨2, [6, 7], none, "MAC"⟩)]
      [(0, "hello"), (1, "world")]).length =
      (sortPairs [(0, "hello"), (1, "world")]).length ∧
    ((entry_to_data "f" [(0, ⟨1, [0, 3], some "hel", "LAB"⟩), (6, ⟨2, [6, 7], none, "MAC"⟩)]
      [(0, "hello"), (1, "world")]).getD 1 (0, ⟨"", [], none, ""⟩)).2.macLabel =
      (((annHits [(0, ⟨1, [0, 3], some "hel", "LAB"⟩), (6, ⟨2, [6, 7], none, "MAC"⟩)]
          (basePos ((sortPairs [(0, "hello"), (1, "world")]).map (fun q => q.2)) 1)
          ((sortPairs [(0, "hello"), (1, "world")]).getD 1 (0, "")).2.length).filter
        width1).getLast?).elim none (fun a => some a.label) :=
  ⟨(c3_span_folding "f" [(0, ⟨1, [0, 3], some "hel", "LAB"⟩), (6, ⟨2, [6, 7], none, "MAC"⟩)]
      [(0, "hello"), (1, "world")] 1 (by decide)).1,
   (c3_span_folding "f" [(0, ⟨1, [0, 3], some "hel", "LAB"⟩), (6, ⟨2, [6, 7], none, "MAC"⟩)]
      [(0, "hello"), (1, "world")] 1 (by decide)).2.1⟩

/- ### C9 : annotations at separator or out-of-range positions -/

theorem annAt_erase (p : Nat) :
    ∀ (anns : List (Int × Ann)) (q : Nat),
      annAt (eraseAnnAt p anns) q = if q = p then none else annAt anns q := by
  intro anns
  induction anns with
  | nil =>
    intro q
    by_cases h : q = p <;> simp [eraseAnnAt, annAt, assocFind, h]
  | cons kv rest ih =>
    intro q
    obtain ⟨k, a⟩ := kv
    by_cases hkp : k = (p : Int)
    · have hfil : eraseAnnAt p ((k, a) :: rest) = eraseAnnAt p rest := by
        simp [eraseAnnAt, hkp]
      rw [hfil, ih]
      by_cases hq : q = p
      · rw [if_pos hq, if_pos hq]
      · rw [if_neg hq, if_neg hq]
        have hkq : ¬(k = (q : Int)) := by
          rw [hkp]
          intro hcast
          exact hq (by exact_mod_cast hcast.symm)
        simp [annAt, assocFind, List.find?_cons, hkq]
    · have hfil : eraseAnnAt p ((k, a) :: rest) = (k, a) :: eraseAnnAt p rest := by
        simp [eraseAnnAt, hkp]
      rw [hfil]
      by_cases hkq : k = (q : Int)
      · have hq : ¬(q = p) := by
          intro h
          exact hkp (by rw [hkq, h])
        rw [if_neg hq]
        simp [annAt, assocFind, List.find?_cons, hkq]
      · have hstep : annAt ((k, a) :: eraseAnnAt p rest) q = annAt (eraseAnnAt p rest) q := by
          simp [annAt, assocFind, List.find?_cons, hkq]
        have hstep2 : annAt ((k, a) :: rest) q = annAt rest q := by
          simp [annAt, assocFind, List.find?_cons, hkq]
        rw [hstep, ih, hstep2]

theorem sentLoop_congr (anns1 anns2 : List (Int × Ann)) :
    ∀ (n pos : Nat) (st : List (String × List (Option String)) × Option String),
      (∀ c, c < n → annAt anns1 (pos + c) = annAt anns2 (pos + c)) →
      sentLoop anns1 pos n st = sentLoop anns2 pos n st := by
  intro n
  induction n with
  | zero => intro pos st _; rfl
  | succ m ih =>
    intro pos st h
    have h0 : annAt anns1 pos = annAt anns2 pos := by
      have := h 0 (by omega)
      simpa using this
    show (match annAt anns1 pos with
          | some a => sentLoop anns1 (pos + 1) m (stepAnn st a)
          | none => sentLoop anns1 (pos + 1) m st) =
         (match annAt anns2 pos with
          | some a => sentLoop anns2 (pos + 1) m (stepAnn st a)
          | none => sentLoop anns2 (pos + 1) m st)
    rw [h0]
    have hsh : ∀ c, c < m → annAt anns1 (pos + 1 + c) = annAt anns2 (pos + 1 + c) := by
      intro c hc
      have := h (c + 1) (by omega)
      have harith : pos + (c + 1) = pos + 1 + c := by omega
      rwa [harith] at this
    cases annAt anns2 pos with
    | some a => exact ih (pos + 1) (stepAnn st a) hsh
    | none => exact ih (pos + 1) st hsh

theorem entryLoop_congr (anns1 anns2 : List (Int × Ann)) (fname : String) :
    ∀ (lines : List (Nat × String)) (pos : Nat),
      (∀ k, k < lines.length → ∀ c, c < ((lines.getD k (0, "")).2).length →
        annAt anns1 (pos + basePos (lines.map (fun q => q.2)) k + c) =
          annAt anns2 (pos + basePos (lines.map (fun q => q.2)) k + c)) →
      entryLoop anns1 fname lines pos = entryLoop anns2 fname lines pos := by
  intro lines
  induction lines with
  | nil => intro pos _; rfl
  | cons x rest ih =>
    intro pos h
    obtain ⟨idx, snt⟩ := x
    have hhead : sentLoop anns1 pos snt.length ([], none) =
        sentLoop anns2 pos snt.length ([], none) := by
      apply sentLoop_congr
      intro c hc
      have h0 := h 0 (by simp) c (by exact hc)
      have hb : basePos (((idx, snt) :: rest).map (fun q => q.2)) 0 = 0 := rfl
      rw [hb] at h0
      simpa using h0
    have htail : entryLoop anns1 fname rest (pos + snt.length + 1) =
        entryLoop anns2 fname rest (pos + snt.length + 1) := by
      apply ih
      intro k hk c hc
      have := h (k + 1) (by simpa using hk) c (by simpa using hc)
      have harith : pos + basePos ((idx, snt) :: rest |>.map (fun q => q.2)) (k + 1) + c =
          pos + snt.length + 1 + basePos (rest.map (fun q => q.2)) k + c := by
        simp only [List.map_cons, basePos]
        omega
      rwa [harith] at this
    simp only [entryLoop, hhead, htail]

theorem basePos_nil : ∀ n : Nat, basePos [] n = 0 := by
  intro n
  cases n <;> rfl

theorem basePos_succ_of_lt : ∀ (ss : List String) (k : Nat), k < ss.length →
    basePos ss (k + 1) = basePos ss k + (ss.getD k "").length + 1 := by
  intro ss
  induction ss with
  | nil => intro k h; simp at h
  | cons s rest ih =>
    intro k h
    cases k with
    | zero =>
      show s.length + 1 + basePos rest 0 = 0 + ((s :: rest).getD 0 "").length + 1
      have h2 : basePos rest 0 = 0 := by cases rest <;> rfl
      rw [h2, List.getD_cons_zero]
      omega
    | succ m =>
      have := ih m (by simpa using h)
      simp only [basePos, List.getD_cons_succ]
      omega

theorem basePos_mono : ∀ (ss : List String) (k m : Nat), k ≤ m →
    basePos ss k ≤ basePos ss m := by
  intro ss
  induction ss with
  | nil => intro k m _; rw [basePos_nil, basePos_nil]
  | cons s rest ih =>
    intro k m hkm
    cases k with
    | zero => exact Nat.zero_le _
    | succ k2 =>
      cases m with
      | zero => omega
      | succ m2 =>
        have := ih k2 m2 (by omega)
        simp only [basePos]
        omega

theorem live_ne_dead : ∀ (ss : List String) (p : Nat),
    ((∃ j, j < ss.length ∧ p = basePos ss j + (ss.getD j "").length) ∨ lastEnd ss ≤ p) →
    ∀ k, k < ss.length → ∀ c, c < (ss.getD k "").length → basePos ss k + c ≠ p := by
  intro ss p hp k hk c hc
  have hk1 := basePos_succ_of_lt ss k hk
  have hmono1 : basePos ss (k + 1) ≤ basePos ss ss.length :=
    basePos_mono ss (k + 1) ss.length (by omega)
  rcases hp with ⟨j, hj, hpj⟩ | hle
  · have hj1 := basePos_succ_of_lt ss j hj
    rcases Nat.lt_trichotomy k j with h | h | h
    · have := basePos_mono ss (k + 1) j (by omega)
      omega
    · subst h
      omega
    · have := basePos_mono ss (j + 1) k (by omega)
      omega
  · unfold lastEnd at hle
    omega

theorem getD_map_snd : ∀ (l : List (Nat × String)) (k : Nat),
    (l.map (fun q => q.2)).getD k "" = (l.getD k (0, "")).2 := by
  intro l
  induction l with
  | nil => intro k; cases k <;> rfl
  | cons x rest ih =>
    intro k
    cases k with
    | zero => rfl
    | succ m => simpa using ih m

/-- Claim C9: the alignment cursor skips one position between consecutive
sentences without consulting the annotation map, so an annotation whose
start offset is an inter-sentence separator position, or at or past the end
of the last sentence, contributes to no sentence record; it still appears
unchanged in the raw annotations stored on the exported entry. -/
theorem c9_dead_positions :
    ∀ (fname : String) (anns : List (Int × Ann)) (textLines : List (Nat × String)) (p : Nat),
      ((∃ j, j < (sortPairs textLines).length ∧
          p = basePos ((sortPairs textLines).map (fun q => q.2)) j +
              (((sortPairs textLines).map (fun q => q.2)).getD j "").length) ∨
        lastEnd ((sortPairs textLines).map (fun q => q.2)) ≤ p) →
      entry_to_data fname anns textLines = entry_to_data fname (eraseAnnAt p anns) textLines ∧
      (mkEntry fname anns textLines).anns = anns := by
  intro fname anns textLines p hp
  refine ⟨?_, rfl⟩
  unfold entry_to_data
  apply entryLoop_congr
  intro k hk c hc
  have hss : k < ((sortPairs textLines).map (fun q => q.2)).length := by
    simpa using hk
  have hcc : c < (((sortPairs textLines).map (fun q => q.2)).getD k "").length := by
    rw [getD_map_snd]
    exact hc
  have hp2 : (∃ j, j < ((sortPairs textLines).map (fun q : Nat × String => q.2)).length ∧
      p = basePos ((sortPairs textLines).map (fun q : Nat × String => q.2)) j +
          (((sortPairs textLines).map (fun q : Nat × String => q.2)).getD j "").length) ∨
      lastEnd ((sortPairs textLines).map (fun q : Nat × String => q.2)) ≤ p := by
    rcases hp with ⟨j, hj, hpj⟩ | hle
    · exact Or.inl ⟨j, by simpa using hj, hpj⟩
    · exact Or.inr hle
  have hne := live_ne_dead ((sortPairs textLines).map (fun q : Nat × String => q.2)) p hp2 k hss c hcc
  rw [annAt_erase]
  rw [if_neg (by simpa using hne)]

/-- Concrete instantiation of the C9 theorem: position 2 is the separator
after the first sentence "ab", so an annotation starting there is dropped. -/
theorem c9_witness :
    entry_to_data "f" [(2, ⟨1, [2, 5], some "x", "L"⟩)] [(0, "ab"), (1, "cd")] =
      entry_to_data "f" (eraseAnnAt 2 [(2, ⟨1, [2, 5], some "x", "L"⟩)]) [(0, "ab"), (1, "cd")] ∧
    (mkEntry "f" [(2, ⟨1, [2, 5], some "x", "L"⟩)] [(0, "ab"), (1, "cd")]).anns =
      [(2, ⟨1, [2, 5], some "x", "L"⟩)] :=
  c9_dead_positions "f" [(2, ⟨1, [2, 5], some "x", "L"⟩)] [(0, "ab"), (1, "cd")] 2
    (Or.inl ⟨0, by decide, by decide⟩)

/- ### C1 : chunk fallback and early termination of process -/

theorem splitSizes_length {α : Type} :
    ∀ (sizes : List Nat) (l : List α), (splitSizes l sizes).length = sizes.length := by
  intro sizes
  induction sizes with
  | nil => intro l; rfl
  | cons sz rest ih => intro l; simp [splitSizes, ih]

theorem arraySplit_length {α : Type} (l : List α) (n : Nat) : (arraySplit l n).length = n := by
  unfold arraySplit
  rw [splitSizes_length]
  simp

theorem processAux_append_ok (api : String → Option Resp) :
    ∀ (pre rest : List (List String)) (i : Nat),
      (∀ ch ∈ pre, (api (joinSents ch)).isSome) →
      processAux api (pre ++ rest) i =
        processAux api pre i ++ processAux api rest (i + pre.length) := by
  intro pre
  induction pre with
  | nil => intro rest i _; simp [processAux]
  | cons c pre2 ih =>
    intro rest i h
    have hc : (api (joinSents c)).isSome := h c (by simp)
    obtain ⟨r, hr⟩ := Option.isSome_iff_exists.mp hc
    rw [List.cons_append]
    simp only [processAux, hr]
    rw [ih rest (i + 1) (fun ch hch => h ch (List.mem_cons_of_mem _ hch))]
    have harith : i + 1 + pre2.length = i + (c :: pre2).length := by
      simp only [List.length_cons]
      omega
    rw [harith]
    simp

theorem processSubs_fail (api : String → Option Resp) (i : Nat) :
    ∀ (subs : List (List String)) (k j : Nat), k < subs.length →
      (∀ m, m < k → (api (joinSents (subs.getD m []))).isSome) →
      api (joinSents (subs.getD k [])) = none →
      processSubs api i subs j =
        ((List.range k).filterMap (fun m =>
          (api (joinSents (subs.getD m []))).map
            (fun r => (pyStrNat i ++ "." ++ pyStrNat (j + m), mkVal r))), false) := by
  intro subs
  induction subs with
  | nil => intro k j hk; simp at hk
  | cons sb rest ih =>
    intro k j hk hsome hfail
    cases k with
    | zero =>
      have hnone : api (joinSents sb) = none := by simpa using hfail
      simp [processSubs, hnone]
    | succ k2 =>
      have h0 : (api (joinSents sb)).isSome := by
        have := hsome 0 (by omega)
        simpa using this
      obtain ⟨r, hr⟩ := Option.isSome_iff_exists.mp h0
      have hrec := ih k2 (j + 1) (by simpa using hk)
        (fun m hm => by
          have := hsome (m + 1) (by omega)
          simpa using this)
        (by simpa using hfail)
      simp only [processSubs, hr]
      rw [hrec]
      rw [List.range_succ_eq_map, List.filterMap_cons, List.filterMap_map]
      have hzero : (api (joinSents ((sb :: rest).getD 0 []))).map
          (fun r2 => (pyStrNat i ++ "." ++ pyStrNat (j + 0), mkVal r2)) =
          some (pyStrNat i ++ "." ++ pyStrNat j, mkVal r) := by
        simp [hr]
      rw [hzero]
      have hfun : ((fun m => (api (joinSents ((sb :: rest).getD m []))).map
            (fun r2 => (pyStrNat i ++ "." ++ pyStrNat (j + m), mkVal r2))) ∘ Nat.succ) =
          (fun m => (api (joinSents (rest.getD m []))).map
            (fun r2 => (pyStrNat i ++ "." ++ pyStrNat (j + 1 + m), mkVal r2))) := by
        funext m
        simp only [Function.comp_apply, List.getD_cons_succ]
        have harith : j + Nat.succ m = j + 1 + m := by omega
        rw [harith]
      rw [hfun]

/-- Claim C1: when the API call for a chunk fails, the chunk is subdivided
into exactly 25 sub-batches retried in order; when sub-batch k then fails,
process returns exactly the results collected so far — the entries of the
earlier chunks followed by the successful sub-batches 0..k-1 — omitting
sub-batches k+1..24 and all subsequent chunks. -/
theorem c1_batch_fallback :
    ∀ (api : String → Option Resp) (pre : List (List String)) (c : List String)
      (rest : List (List String)) (k : Nat),
      (∀ ch ∈ pre, (api (joinSents ch)).isSome) →
      api (joinSents c) = none →
      k < 25 →
      (∀ m, m < k → (api (joinSents ((arraySplit c 25).getD m []))).isSome) →
      api (joinSents ((arraySplit c 25).getD k [])) = none →
      (arraySplit c 25).length = 25 ∧
      process api (pre ++ c :: rest) =
        process api pre ++
          (List.range k).filterMap (fun m =>
            (api (joinSents ((arraySplit c 25).getD m []))).map
              (fun r => (pyStrNat pre.length ++ "." ++ pyStrNat m, mkVal r))) := by
  intro api pre c rest k hpre hc hk25 hsome hfail
  have hlen := arraySplit_length c 25
  refine ⟨hlen, ?_⟩
  unfold process
  rw [processAux_append_ok api pre (c :: rest) 0 hpre]
  have hsubs := processSubs_fail api pre.length (arraySplit c 25) k 0 (by omega) hsome hfail
  simp only [processAux, hc, Nat.zero_add]
  rw [hsubs]
  simp

/-- Concrete instantiation of the C1 theorem: the second chunk fails, its
sub-batch 0 succeeds, sub-batch 1 fails, and the result holds the first
chunk's entry plus the entry of sub-batch 1.0 only. -/
theorem c1_witness :
    (arraySplit ["b", "c"] 25).length = 25 ∧
    process (fun s => if s = "b <--> c" ∨ s = "c" then none else some ⟨"T", []⟩)
        ([["a"]] ++ ["b", "c"] :: [["d"]]) =
      process (fun s => if s = "b <--> c" ∨ s = "c" then none else some ⟨"T", []⟩) [["a"]] ++
        (List.range 1).filterMap (fun m =>
          ((fun s => if s = "b <--> c" ∨ s = "c" then none else some ⟨"T", []⟩)
              (joinSents ((arraySplit ["b", "c"] 25).getD m []))).map
            (fun r => (pyStrNat (List.length [["a"]]) ++ "." ++ pyStrNat m, mkVal r))) :=
  c1_batch_fallback (fun s => if s = "b <--> c" ∨ s = "c" then none else some ⟨"T", []⟩)
    [["a"]] ["b", "c"] [["d"]] 1
    (by decide) (by decide) (by decide)
    (by intro m hm; interval_cases m; decide)
    (by decide)

theorem exMapList_cons {α β : Type} (g : α → Except PyErr β) (a : α) (l : List α) :
    exMapList g (a :: l) =
      match g a with
      | Except.error e => Except.error e
      | Except.ok b =>
        match exMapList g l with
        | Except.error e => Except.error e
        | Except.ok bs => Except.ok (b :: bs) := rfl

/- ### C6 : error handling of convert / files_to_dict (corrected) -/

/-- Counterexample to claim C6 as stated: an annotation line whose offset
field is not an integer raises a ValueError, which the IndexError-only
handler does not catch; it propagates out of convert and aborts
files_to_dict, so the second file is never processed. -/
theorem c6_counterexample :
    convert [["T1", "LAB x 3", "hi"]] ["hello\n"] = Except.error PyErr.valueE ∧
    files_to_dict [("d/f1", [["T1", "LAB x 3", "hi"]], ["hello\n"]),
                   ("d/f2", [], ["ok\n"])] = Except.error PyErr.valueE := by
  constructor
  · rfl
  · rfl

/-- Claim C6 (amended): an annotation line that is malformed by missing
expected fields raises an IndexError, which degrades the entire file's
annotation set to empty while the text is still processed; every file whose
annotation parse does not raise a ValueError is processed, and the reader
reports (error, loaded) counts over the file pairs; however an annotation
field that fails integer parsing raises a ValueError that propagates past
the file's processing and aborts the run. -/
theorem c6_amended :
    (∀ (annL : List (List String)) (txtL : List String),
      exMapList parseAnnLine annL = Except.error PyErr.indexE →
      convert annL txtL = Except.ok (convertText txtL, [])) ∧
    (∀ files : List (String × List (List String) × List String),
      (∀ f ∈ files, exMapList parseAnnLine f.2.1 ≠ Except.error PyErr.valueE) →
      ∃ entries, files_to_dict files = Except.ok entries ∧ entries.length = files.length) ∧
    (∀ (A T : Type) (avail : List (String × Option A × Option T)),
      (readFiles avail).2.1 =
        (avail.filter (fun t => t.2.1.isNone || t.2.2.isNone)).length ∧
      (readFiles avail).2.2 =
        (avail.filter (fun t => !(t.2.1.isNone || t.2.2.isNone))).length) := by
  refine ⟨?_, ?_, ?_⟩
  · intro annL txtL h
    unfold convert convertAnns
    rw [h]
    rfl
  · intro files
    induction files with
    | nil => intro _; exact ⟨[], rfl, rfl⟩
    | cons f rest ih =>
      intro h
      obtain ⟨entries2, he2, hlen2⟩ := ih (fun g hg => h g (List.mem_cons_of_mem _ hg))
      have hf := h f (by simp)
      have hok : ∃ a, convertAnns f.2.1 = Except.ok a := by
        unfold convertAnns
        cases hex : exMapList parseAnnLine f.2.1 with
        | ok ps => exact ⟨dictOfPairs ps, rfl⟩
        | error e =>
          cases e with
          | indexE => exact ⟨[], rfl⟩
          | valueE => exact absurd hex hf
      obtain ⟨a, ha⟩ := hok
      refine ⟨(basename f.1, mkEntry f.1 a (convertText f.2.2)) :: entries2, ?_, by simp [hlen2]⟩
      have hgf : (convert f.2.1 f.2.2).map (fun p => (basename f.1, mkEntry f.1 p.2 p.1)) =
          Except.ok (basename f.1, mkEntry f.1 a (convertText f.2.2)) := by
        unfold convert
        rw [ha]
        rfl
      have he2' : exMapList (fun g => (convert g.2.1 g.2.2).map
          (fun p => (basename g.1, mkEntry g.1 p.2 p.1))) rest = Except.ok entries2 := he2
      show exMapList (fun g => (convert g.2.1 g.2.2).map
          (fun p => (basename g.1, mkEntry g.1 p.2 p.1))) (f :: rest) = _
      rw [exMapList_cons, hgf, he2']
  · intro A T avail
    induction avail with
    | nil => exact ⟨rfl, rfl⟩
    | cons x rest ih =>
      obtain ⟨floc, oa, ot⟩ := x
      cases oa with
      | none =>
        simp only [readFiles, List.filter]
        constructor
        · show (readFiles rest).2.1 + 1 = _
          simp [ih.1]
        · show (readFiles rest).2.2 = _
          simp [ih.2]
      | some a =>
        cases ot with
        | none =>
          constructor
          · show (readFiles rest).2.1 + 1 = _
            simp [ih.1, List.filter]
          · show (readFiles rest).2.2 = _
            simp [ih.2, List.filter]
        | some t =>
          constructor
          · show (readFiles rest).2.1 = _
            simp [ih.1, List.filter]
          · show (readFiles rest).2.2 + 1 = _
            simp [ih.2, List.filter]

/-- Concrete instantiation of the amended C6 theorem. -/
theorem c6_witness :
    convert [["T1"]] ["hello\n"] = Except.ok (convertText ["hello\n"], []) ∧
    (∃ entries, files_to_dict [("d/f2", [], ["ok\n"])] = Except.ok entries ∧
      entries.length = 1) ∧
    (readFiles [("f1", some [[""]], (none : Option (List String))),
                ("f2", some [[""]], some ["x"])]).2.1 =
      ([("f1", some [[""]], (none : Option (List String))),
        ("f2", some [[""]], some ["x"])].filter
          (fun t => t.2.1.isNone || t.2.2.isNone)).length :=
  ⟨c6_amended.1 [["T1"]] ["hello\n"] (by rfl),
   c6_amended.2.1 [("d/f2", [], ["ok\n"])]
     (by intro f hf
         simp only [List.mem_singleton] at hf
         subst hf
         intro h
         exact absurd h (by simp [exMapList])),
   (c6_amended.2.2 (List (List String)) (List String)
     [("f1", some [[""]], none), ("f2", some [[""]], some ["x"])]).1⟩

/- ### C8 : JSON round-trip for the documented fields -/

theorem digitsToNat_append (ds : List Char) (c : Char) :
    digitsToNat (ds ++ [c]) = digitsToNat ds * 10 + digitVal c := by
  unfold digitsToNat
  rw [List.foldl_append]
  rfl

theorem digitVal_ofNat (d : Nat) (h : d < 10) : digitVal (Char.ofNat (48 + d)) = d := by
  interval_cases d <;> decide

theorem digitsToNat_natDigitsF : ∀ (fuel n : Nat), n ≤ fuel →
    digitsToNat (natDigitsF fuel n) = n := by
  intro fuel
  induction fuel with
  | zero =>
    intro n h
    have hn : n = 0 := by omega
    subst hn
    decide
  | succ f ih =>
    intro n h
    by_cases h10 : n < 10
    · simp only [natDigitsF, if_pos h10]
      have := digitVal_ofNat n h10
      simp [digitsToNat, this]
    · simp only [natDigitsF, if_neg h10]
      rw [digitsToNat_append]
      rw [ih (n / 10) (by omega)]
      rw [digitVal_ofNat (n % 10) (by omega)]
      omega

theorem pyStrNat_inj (m n : Nat) (h : pyStrNat m = pyStrNat n) : m = n := by
  have hm := digitsToNat_natDigitsF m m (le_refl m)
  have hn := digitsToNat_natDigitsF n n (le_refl n)
  have hdata : natDigitsF m m = natDigitsF n n := congrArg String.data h
  rw [← hm, ← hn, hdata]

theorem assocFind_map_val {α β γ : Type} [DecidableEq α] :
    ∀ (l : List (α × β)) (g : β → γ) (k : α),
      assocFind (l.map (fun kv => (kv.1, g kv.2))) k = (assocFind l k).map g := by
  intro l
  induction l with
  | nil => intro g k; rfl
  | cons kv rest ih =>
    intro g k
    obtain ⟨k0, v⟩ := kv
    by_cases hk : k0 = k
    · subst hk
      simp [assocFind, List.find?_cons]
    · simp [assocFind, List.find?_cons, hk]
      have := ih g k
      simpa [assocFind] using this

theorem assocFind_pyStrNat {β γ : Type} :
    ∀ (l : List (Nat × β)) (g : β → γ) (idx : Nat),
      assocFind (l.map (fun kv => (pyStrNat kv.1, g kv.2))) (pyStrNat idx) =
        (assocFind l idx).map g := by
  intro l
  induction l with
  | nil => intro g idx; rfl
  | cons kv rest ih =>
    intro g idx
    obtain ⟨k0, v⟩ := kv
    by_cases hk : k0 = idx
    · subst hk
      simp [assocFind, List.find?_cons]
    · have hne : ¬(pyStrNat k0 = pyStrNat idx) := fun hc => hk (pyStrNat_inj k0 idx hc)
      simp [assocFind, List.find?_cons, hk, hne]
      have := ih g idx
      simpa [assocFind] using this

theorem decOptStr_enc (o : Option String) : decOptStr (encOptStr o) = some o := by
  cases o <;> rfl

theorem optMapList_decOptStr : ∀ (v : List (Option String)),
    optMapList decOptStr (v.map encOptStr) = some v := by
  intro v
  induction v with
  | nil => rfl
  | cons o rest ih =>
    show optMapList decOptStr (encOptStr o :: rest.map encOptStr) = some (o :: rest)
    simp only [optMapList, decOptStr_enc, ih]

theorem decLabels_enc : ∀ (labels : List (String × List (Option String))),
    decLabels (encLabels labels) = some labels := by
  intro labels
  induction labels with
  | nil => rfl
  | cons kv rest ih =>
    obtain ⟨k, v⟩ := kv
    show optMapList decLabelsEntry
        ((k, JVal.jarr (v.map encOptStr)) :: rest.map (fun kv => (kv.1, JVal.jarr (kv.2.map encOptStr)))) =
      some ((k, v) :: rest)
    have hentry : decLabelsEntry (k, JVal.jarr (v.map encOptStr)) = some (k, v) := by
      show (optMapList decOptStr (v.map encOptStr)).map (fun v2 => (k, v2)) = some (k, v)
      rw [optMapList_decOptStr]
      rfl
    have hrest : optMapList decLabelsEntry
        (rest.map (fun kv => (kv.1, JVal.jarr (kv.2.map encOptStr)))) = some rest := ih
    simp only [optMapList, hentry, hrest]

theorem decRecordFields_enc (r : SentenceRecord) :
    decRecordFields (encRecord r) = some (r.labels, r.macLabel, r.scope) := by
  have h1 : jGetField (encRecord r) "labels" = some (encLabels r.labels) := rfl
  have h2 : jGetField (encRecord r) "macro" = some (encOptStr r.macLabel) := rfl
  have h3 : jGetField (encRecord r) "scope" = some (JVal.jstr r.scope) := rfl
  unfold decRecordFields
  simp [h1, h2, h3, decLabels_enc, decOptStr_enc, decStr]

/-- Claim C8: serializing the exported data dictionary to JSON and reading
the documented per-sentence fields back from the document yields exactly
the labels, macro label, and scope of the in-memory structure, for every
file key and sentence index (indices appear in the document under their
str() image). -/
theorem c8_roundtrip :
    ∀ (data : List (String × Entry)) (fn : String) (idx : Nat),
      extractFields (encodeTop data) fn (pyStrNat idx) = origFields data fn idx := by
  intro data fn idx
  unfold extractFields origFields encodeTop
  rw [show jGetField (JVal.jobj (data.map (fun fe => (fe.1, encEntry fe.2)))) fn =
      assocFind (data.map (fun kv => (kv.1, encEntry kv.2))) fn from rfl]
  rw [assocFind_map_val]
  cases he : assocFind data fn with
  | none => rfl
  | some e =>
    simp only [Option.map_some', Option.bind_eq_bind, Option.some_bind]
    rw [show jGetField (encEntry e) "data" =
        some (JVal.jobj (e.data.map (fun ir => (pyStrNat ir.1, encRecord ir.2)))) from rfl]
    simp only [Option.some_bind]
    rw [show jGetField (JVal.jobj (e.data.map (fun ir => (pyStrNat ir.1, encRecord ir.2))))
          (pyStrNat idx) =
        assocFind (e.data.map (fun kv => (pyStrNat kv.1, encRecord kv.2))) (pyStrNat idx) from rfl]
    rw [assocFind_pyStrNat]
    cases hr : assocFind e.data idx with
    | none => rfl
    | some r =>
      simp only [Option.map_some', Option.some_bind]
      rw [decRecordFields_enc]

end AmicaSpec
